import Mathlib

/-!
Verification of the soft-DTW engine in `softdtw.py`.

The file shallowly embeds the numerical core of the repository:
the sequential forward accumulator `compute_softdtw`, the anti-diagonal
(CUDA wavefront) forward accumulator `compute_softdtw_cuda`, the backward
adjoint accumulator `compute_softdtw_backward`, the terminal-cell /
value-extraction logic of `_SoftDTW.forward`, the backend dispatch of
`SoftDTW._get_func_dtw`, and the RBF cost-matrix builder
`SoftDTW._calc_distance_matrix`.

Machine floats are modelled by `XReal`: an exact real, `+inf` or `-inf`.
The few operations that are NaN on floats (such as `inf - inf`) are given
a junk value `val 0`; all theorems below are proved on executions in which
those combinations never arise.

The batch loop `for b in range(B)` processes fully independent per-element
grids, so the embedding is per batch element: a cost matrix is a function
`ℕ → ℕ → ℝ` and a grid a function `ℕ → ℕ → XReal`.  The bandwidth is
modelled as a natural number (the specification's `BandwidthParameter`);
the source stores it as a float and truncates with `int()`, which agree on
natural-number bandwidths.
-/

open Classical

noncomputable section

namespace SoftDtwPy

/-- Extended real values, as held by the numpy / torch float arrays of
`softdtw.py`: a finite real number, `+inf` or `-inf` (NaN does not arise
in any execution covered by the theorems of this file). -/
inductive XReal where
  | negInf : XReal
  | val : ℝ → XReal
  | posInf : XReal

namespace XReal

/-- Float negation `-x`. -/
def xneg : XReal → XReal
  | .negInf => .posInf
  | .val r => .val (-r)
  | .posInf => .negInf

/-- Float division `x / g` by a real scalar (the sign of `g` flips the
infinities, as for floats). -/
def xdiv : XReal → ℝ → XReal
  | .negInf, g => if g < 0 then .posInf else .negInf
  | .val r, g => .val (r / g)
  | .posInf, g => if g < 0 then .negInf else .posInf

/-- Float addition; the NaN case `inf + (-inf)` is junk `val 0`. -/
def xadd : XReal → XReal → XReal
  | .val a, .val b => .val (a + b)
  | .val _, .posInf => .posInf
  | .val _, .negInf => .negInf
  | .posInf, .val _ => .posInf
  | .posInf, .posInf => .posInf
  | .posInf, .negInf => .val 0
  | .negInf, .val _ => .negInf
  | .negInf, .negInf => .negInf
  | .negInf, .posInf => .val 0

/-- Float subtraction; the NaN case `inf - inf` is junk `val 0`. -/
def xsub : XReal → XReal → XReal
  | .val a, .val b => .val (a - b)
  | .val _, .posInf => .negInf
  | .val _, .negInf => .posInf
  | .posInf, .val _ => .posInf
  | .posInf, .posInf => .val 0
  | .posInf, .negInf => .posInf
  | .negInf, .val _ => .negInf
  | .negInf, .negInf => .val 0
  | .negInf, .posInf => .negInf

/-- Float multiplication; the NaN cases `0 * inf` are junk `val 0`. -/
def xmul : XReal → XReal → XReal
  | .val a, .val b => .val (a * b)
  | .val a, .posInf => if 0 < a then .posInf else if a < 0 then .negInf else .val 0
  | .val a, .negInf => if 0 < a then .negInf else if a < 0 then .posInf else .val 0
  | .posInf, .val b => if 0 < b then .posInf else if b < 0 then .negInf else .val 0
  | .negInf, .val b => if 0 < b then .negInf else if b < 0 then .posInf else .val 0
  | .posInf, .posInf => .posInf
  | .posInf, .negInf => .negInf
  | .negInf, .posInf => .negInf
  | .negInf, .negInf => .posInf

/-- Float binary `max`. -/
def xmax : XReal → XReal → XReal
  | .posInf, _ => .posInf
  | .negInf, y => y
  | .val _, .posInf => .posInf
  | .val a, .negInf => .val a
  | .val a, .val b => .val (max a b)

/-- Float `exp`: `exp (-inf) = 0`, `exp (+inf) = +inf`. -/
def xexp : XReal → XReal
  | .negInf => .val 0
  | .val r => .val (Real.exp r)
  | .posInf => .posInf

/-- Float `log`: `log 0 = -inf`, `log (+inf) = +inf` (`log` of a negative
float is NaN and never arises; it is junk here). -/
def xlog : XReal → XReal
  | .negInf => .val 0
  | .val r => if r = 0 then .negInf else .val (Real.log r)
  | .posInf => .posInf

/-- Float multiplication by the real scalar `g` on the left. -/
def xscale (g : ℝ) : XReal → XReal
  | .val r => .val (g * r)
  | .posInf => if g < 0 then .negInf else if 0 < g then .posInf else .val 0
  | .negInf => if g < 0 then .posInf else if 0 < g then .negInf else .val 0

/-- The `np.isinf` / `math.isinf` test: true on `+inf` and on `-inf`. -/
def isInfX : XReal → Bool
  | .val _ => false
  | _ => true

theorem isInfX_val (r : ℝ) : isInfX (.val r) = false := rfl

theorem val_ne_posInf (r : ℝ) : XReal.val r ≠ XReal.posInf := by
  intro h; exact XReal.noConfusion h

theorem val_ne_negInf (r : ℝ) : XReal.val r ≠ XReal.negInf := by
  intro h; exact XReal.noConfusion h

theorem posInf_ne_negInf : XReal.posInf ≠ XReal.negInf := by
  intro h; exact XReal.noConfusion h

theorem val_inj {a b : ℝ} (h : XReal.val a = XReal.val b) : a = b := by
  cases h; rfl

end XReal

export XReal (xneg xdiv xadd xsub xmul xmax xexp xlog xscale isInfX)

/-- A per-batch-element padded grid, total over `ℕ × ℕ`; the algorithms only
ever touch indices below `N + 2` and `M + 2`. -/
abbrev Grid := ℕ → ℕ → XReal

/-- Writing one cell of a grid. -/
def updateCell (g : Grid) (i j : ℕ) (v : XReal) : Grid :=
  fun a b => if a = i ∧ b = j then v else g a b

theorem updateCell_same (g : Grid) (i j : ℕ) (v : XReal) :
    updateCell g i j v i j = v := by
  simp [updateCell]

theorem updateCell_other (g : Grid) (i j a b : ℕ) (v : XReal)
    (h : ¬(a = i ∧ b = j)) : updateCell g i j v a b = g a b := by
  simp only [updateCell, if_neg h]

/-- The initial accumulated-cost grid: `R = inf` everywhere, `R[0,0] = 0`
(lines 230-231 / 114-115 of the source). -/
def initR : Grid := fun i j => if i = 0 ∧ j = 0 then .val 0 else .posInf

/-- Interior (1-indexed) cells of the padded `(N+2) × (M+2)` grid. -/
abbrev interior (N M i j : ℕ) : Prop := 1 ≤ i ∧ i ≤ N ∧ 1 ≤ j ∧ j ≤ M

/-- The Sakoe-Chiba pruning test `0 < bandwidth < |i - j|` of the source. -/
abbrev prunedCell (w i j : ℕ) : Prop := 0 < w ∧ (w : ℤ) < |(i : ℤ) - (j : ℤ)|

/-- The shared subterm `rmax = max (max r0 r1) r2` of the forward loop body,
with `r0 = -x0/γ`, `r1 = -x1/γ`, `r2 = -x2/γ` (source lines 240-243). -/
def rmax3 (γ : ℝ) (x0 x1 x2 : XReal) : XReal :=
  xmax (xmax (xdiv (xneg x0) γ) (xdiv (xneg x1) γ)) (xdiv (xneg x2) γ)

/-- The numerically-stabilised soft minimum of the three predecessor values,
exactly as in the loop body of `compute_softdtw` (source lines 240-245):
`rsum = exp (r0 - rmax) + exp (r1 - rmax) + exp (r2 - rmax)`,
result `= -γ * (log rsum + rmax)`. -/
def softmin3 (γ : ℝ) (x0 x1 x2 : XReal) : XReal :=
  xscale (-γ) (xadd (xlog (xadd (xadd
      (xexp (xsub (xdiv (xneg x0) γ) (rmax3 γ x0 x1 x2)))
      (xexp (xsub (xdiv (xneg x1) γ) (rmax3 γ x0 x1 x2))))
      (xexp (xsub (xdiv (xneg x2) γ) (rmax3 γ x0 x1 x2)))))
    (rmax3 γ x0 x1 x2))

/-- One forward cell update: `R[i,j] = D[i-1,j-1] + softmin` (source line 246),
with `x0 x1 x2` the values read at `(i-1,j-1)`, `(i-1,j)`, `(i,j-1)`. -/
def cellOut (D : ℕ → ℕ → ℝ) (γ : ℝ) (i j : ℕ) (x0 x1 x2 : XReal) : XReal :=
  xadd (.val (D (i - 1) (j - 1))) (softmin3 γ x0 x1 x2)

/-- One iteration of the doubly-nested forward loop of `compute_softdtw`
(lines 237-246): skip the cell if pruned, otherwise write the soft-minimum
recurrence value. -/
def fwdStep (D : ℕ → ℕ → ℝ) (γ : ℝ) (w : ℕ) (g : Grid) (i j : ℕ) : Grid :=
  if prunedCell w i j then g
  else updateCell g i j (cellOut D γ i j (g (i - 1) (j - 1)) (g (i - 1) j) (g i (j - 1)))

/-- The inner loop `for i in range(1, N + 1)` of `compute_softdtw`, run for
`i = 1, ..., n` (ascending) at fixed column `j`. -/
def fwdInner (D : ℕ → ℕ → ℝ) (γ : ℝ) (w j : ℕ) : ℕ → Grid → Grid
  | 0, g => g
  | n + 1, g => fwdStep D γ w (fwdInner D γ w j n g) (n + 1) j

/-- The outer loop `for j in range(1, M + 1)` of `compute_softdtw`, run for
`j = 1, ..., m` (ascending), each column sweeping rows `1, ..., N`. -/
def fwdOuter (D : ℕ → ℕ → ℝ) (γ : ℝ) (w N : ℕ) : ℕ → Grid
  | 0 => initR
  | m + 1 => fwdInner D γ w (m + 1) N (fwdOuter D γ w N m)

/-- Model of `compute_softdtw` (source lines 225-250) for one batch element:
the sequential CPU forward pass, producing the padded accumulated-cost grid. -/
def compute_softdtw (D : ℕ → ℕ → ℝ) (γ : ℝ) (w N M : ℕ) : Grid :=
  fwdOuter D γ w N M

/-- The dependency-ordered (schedule-free) accumulated-cost grid: the unique
solution of the forward recurrence, defined by recursion on the anti-diagonal
index `i + j`.  Both scheduling models are proved equal to it. -/
def softdtwRec (D : ℕ → ℕ → ℝ) (γ : ℝ) (w N M : ℕ) : ℕ → ℕ → XReal
  | i, j =>
    if h : interior N M i j ∧ ¬ prunedCell w i j then
      cellOut D γ i j (softdtwRec D γ w N M (i - 1) (j - 1)) (softdtwRec D γ w N M (i - 1) j)
        (softdtwRec D γ w N M i (j - 1))
    else if i = 0 ∧ j = 0 then .val 0 else .posInf
termination_by i j => i + j
decreasing_by
  all_goals (obtain ⟨⟨h1, -, h3, -⟩, -⟩ := h; omega)

theorem softdtwRec_eq (D : ℕ → ℕ → ℝ) (γ : ℝ) (w N M i j : ℕ) :
    softdtwRec D γ w N M i j =
      if interior N M i j ∧ ¬ prunedCell w i j then
        cellOut D γ i j (softdtwRec D γ w N M (i - 1) (j - 1)) (softdtwRec D γ w N M (i - 1) j)
          (softdtwRec D γ w N M i (j - 1))
      else if i = 0 ∧ j = 0 then .val 0 else .posInf := by
  rw [softdtwRec]
  rw [dite_eq_ite]

theorem softdtwRec_active (D : ℕ → ℕ → ℝ) (γ : ℝ) (w N M i j : ℕ)
    (h : interior N M i j) (ha : ¬ prunedCell w i j) :
    softdtwRec D γ w N M i j =
      cellOut D γ i j (softdtwRec D γ w N M (i - 1) (j - 1)) (softdtwRec D γ w N M (i - 1) j)
        (softdtwRec D γ w N M i (j - 1)) := by
  rw [softdtwRec_eq, if_pos ⟨h, ha⟩]

theorem softdtwRec_origin (D : ℕ → ℕ → ℝ) (γ : ℝ) (w N M : ℕ) :
    softdtwRec D γ w N M 0 0 = .val 0 := by
  rw [softdtwRec_eq]
  have h : ¬ (interior N M 0 0 ∧ ¬ prunedCell w 0 0) := by
    rintro ⟨⟨h1, -⟩, -⟩; omega
  rw [if_neg h, if_pos ⟨rfl, rfl⟩]

theorem softdtwRec_notInterior (D : ℕ → ℕ → ℝ) (γ : ℝ) (w N M i j : ℕ)
    (h : ¬ interior N M i j) (h0 : ¬ (i = 0 ∧ j = 0)) :
    softdtwRec D γ w N M i j = .posInf := by
  rw [softdtwRec_eq]
  rw [if_neg (by rintro ⟨hi, -⟩; exact h hi), if_neg h0]

theorem softdtwRec_pruned (D : ℕ → ℕ → ℝ) (γ : ℝ) (w N M i j : ℕ)
    (h : interior N M i j) (hp : prunedCell w i j) :
    softdtwRec D γ w N M i j = .posInf := by
  rw [softdtwRec_eq]
  rw [if_neg (by rintro ⟨-, ha⟩; exact ha hp), if_neg (by rintro ⟨h0, -⟩; omega)]

theorem softdtwRec_eq_initR_of_notInterior (D : ℕ → ℕ → ℝ) (γ : ℝ) (w N M i j : ℕ)
    (h : ¬ interior N M i j) : softdtwRec D γ w N M i j = initR i j := by
  by_cases h0 : i = 0 ∧ j = 0
  · obtain ⟨rfl, rfl⟩ := h0
    rw [softdtwRec_origin]; simp [initR]
  · rw [softdtwRec_notInterior D γ w N M i j h h0]
    simp only [initR, if_neg h0]

/-- Values that a forward accumulated-cost grid can hold: `+inf` or a finite
real (never `-inf`). -/
abbrev Reach (x : XReal) : Prop := x = XReal.posInf ∨ ∃ r : ℝ, x = XReal.val r

/-- The exact real weight `exp (-x / γ)` contributed by a predecessor value
`x` to the soft minimum (`0` when the predecessor is unreachable). -/
def wexp (γ : ℝ) : XReal → ℝ
  | .val r => Real.exp (-r / γ)
  | _ => 0

theorem wexp_nonneg (γ : ℝ) (x : XReal) : 0 ≤ wexp γ x := by
  cases x with
  | val r => exact (Real.exp_pos _).le
  | posInf => exact le_refl 0
  | negInf => exact le_refl 0

theorem wexp_val_pos (γ r : ℝ) : 0 < wexp γ (.val r) := Real.exp_pos _

theorem direct_term (γ : ℝ) (hγ : 0 < γ) (x : XReal) (hx : Reach x) :
    xexp (xdiv (xneg x) γ) = .val (wexp γ x) := by
  rcases hx with rfl | ⟨r, rfl⟩
  · simp [xneg, xdiv, xexp, wexp, lt_asymm hγ]
  · simp [xneg, xdiv, xexp, wexp]

theorem stable_term (γ : ℝ) (hγ : 0 < γ) (x : XReal) (hx : Reach x) (m : ℝ) :
    xexp (xsub (xdiv (xneg x) γ) (.val m)) = .val (wexp γ x * Real.exp (-m)) := by
  rcases hx with rfl | ⟨r, rfl⟩
  · simp [xneg, xdiv, xsub, xexp, wexp, lt_asymm hγ]
  · simp only [xneg, xdiv, xsub, xexp, wexp]
    congr 1
    rw [show -r / γ - m = -r / γ + -m by ring, Real.exp_add]

theorem rmax3_val (γ : ℝ) (hγ : 0 < γ) {x0 x1 x2 : XReal} (h0 : Reach x0) (h1 : Reach x1)
    (h2 : Reach x2)
    (hfin : (∃ r, x0 = XReal.val r) ∨ (∃ r, x1 = XReal.val r) ∨ (∃ r, x2 = XReal.val r)) :
    ∃ m, rmax3 γ x0 x1 x2 = .val m := by
  have hng : ¬ γ < 0 := lt_asymm hγ
  rcases h0 with rfl | ⟨a, rfl⟩ <;> rcases h1 with rfl | ⟨b, rfl⟩ <;>
      rcases h2 with rfl | ⟨c, rfl⟩ <;>
    simp [rmax3, xneg, xdiv, xmax, hng] at hfin ⊢

theorem wsum_pos (γ : ℝ) {x0 x1 x2 : XReal}
    (hfin : (∃ r, x0 = XReal.val r) ∨ (∃ r, x1 = XReal.val r) ∨ (∃ r, x2 = XReal.val r)) :
    0 < wexp γ x0 + wexp γ x1 + wexp γ x2 := by
  have n0 := wexp_nonneg γ x0
  have n1 := wexp_nonneg γ x1
  have n2 := wexp_nonneg γ x2
  rcases hfin with ⟨r, rfl⟩ | ⟨r, rfl⟩ | ⟨r, rfl⟩
  · have := wexp_val_pos γ r; linarith
  · have := wexp_val_pos γ r; linarith
  · have := wexp_val_pos γ r; linarith

theorem softmin3_val (γ : ℝ) (hγ : 0 < γ) {x0 x1 x2 : XReal} (h0 : Reach x0) (h1 : Reach x1)
    (h2 : Reach x2)
    (hfin : (∃ r, x0 = XReal.val r) ∨ (∃ r, x1 = XReal.val r) ∨ (∃ r, x2 = XReal.val r)) :
    softmin3 γ x0 x1 x2 = .val (-γ * Real.log (wexp γ x0 + wexp γ x1 + wexp γ x2)) := by
  obtain ⟨m, hm⟩ := rmax3_val γ hγ h0 h1 h2 hfin
  have t0 := stable_term γ hγ x0 h0 m
  have t1 := stable_term γ hγ x1 h1 m
  have t2 := stable_term γ hγ x2 h2 m
  have hw : 0 < wexp γ x0 + wexp γ x1 + wexp γ x2 := wsum_pos γ hfin
  unfold softmin3
  rw [hm, t0, t1, t2]
  simp only [xadd]
  rw [show wexp γ x0 * Real.exp (-m) + wexp γ x1 * Real.exp (-m) + wexp γ x2 * Real.exp (-m)
      = (wexp γ x0 + wexp γ x1 + wexp γ x2) * Real.exp (-m) by ring]
  have hS : (wexp γ x0 + wexp γ x1 + wexp γ x2) * Real.exp (-m) ≠ 0 :=
    (mul_pos hw (Real.exp_pos _)).ne'
  simp only [xlog, if_neg hS, xadd, xscale]
  congr 1
  rw [Real.log_mul hw.ne' (Real.exp_ne_zero _), Real.log_exp]
  ring

/-- The unstabilised (textbook) form of the soft minimum, as written in the
specification: `-γ * ln (exp (-x0/γ) + exp (-x1/γ) + exp (-x2/γ))`. -/
def directSoftmin (γ : ℝ) (x0 x1 x2 : XReal) : XReal :=
  xscale (-γ) (xlog (xadd (xadd (xexp (xdiv (xneg x0) γ)) (xexp (xdiv (xneg x1) γ)))
    (xexp (xdiv (xneg x2) γ))))

theorem directSoftmin_val (γ : ℝ) (hγ : 0 < γ) {x0 x1 x2 : XReal} (h0 : Reach x0)
    (h1 : Reach x1) (h2 : Reach x2)
    (hfin : (∃ r, x0 = XReal.val r) ∨ (∃ r, x1 = XReal.val r) ∨ (∃ r, x2 = XReal.val r)) :
    directSoftmin γ x0 x1 x2 = .val (-γ * Real.log (wexp γ x0 + wexp γ x1 + wexp γ x2)) := by
  have hw : 0 < wexp γ x0 + wexp γ x1 + wexp γ x2 := wsum_pos γ hfin
  unfold directSoftmin
  rw [direct_term γ hγ x0 h0, direct_term γ hγ x1 h1, direct_term γ hγ x2 h2]
  simp only [xadd, xlog, if_neg hw.ne', xscale]

/-- On reachable predecessors with at least one finite one, the stabilised
soft minimum of the code agrees with the unstabilised form of the spec. -/
theorem softmin3_eq_directSoftmin (γ : ℝ) (hγ : 0 < γ) {x0 x1 x2 : XReal} (h0 : Reach x0)
    (h1 : Reach x1) (h2 : Reach x2)
    (hfin : (∃ r, x0 = XReal.val r) ∨ (∃ r, x1 = XReal.val r) ∨ (∃ r, x2 = XReal.val r)) :
    softmin3 γ x0 x1 x2 = directSoftmin γ x0 x1 x2 := by
  rw [softmin3_val γ hγ h0 h1 h2 hfin, directSoftmin_val γ hγ h0 h1 h2 hfin]

theorem cellOut_val (D : ℕ → ℕ → ℝ) (γ : ℝ) (hγ : 0 < γ) (i j : ℕ) {x0 x1 x2 : XReal}
    (h0 : Reach x0) (h1 : Reach x1) (h2 : Reach x2)
    (hfin : (∃ r, x0 = XReal.val r) ∨ (∃ r, x1 = XReal.val r) ∨ (∃ r, x2 = XReal.val r)) :
    cellOut D γ i j x0 x1 x2 =
      .val (D (i - 1) (j - 1) + -γ * Real.log (wexp γ x0 + wexp γ x1 + wexp γ x2)) := by
  rw [cellOut, softmin3_val γ hγ h0 h1 h2 hfin]
  simp only [xadd]

theorem cellOut_reach (D : ℕ → ℕ → ℝ) (γ : ℝ) (hγ : 0 < γ) (i j : ℕ) {x0 x1 x2 : XReal}
    (h0 : Reach x0) (h1 : Reach x1) (h2 : Reach x2) :
    Reach (cellOut D γ i j x0 x1 x2) := by
  by_cases hfin : (∃ r, x0 = XReal.val r) ∨ (∃ r, x1 = XReal.val r) ∨ (∃ r, x2 = XReal.val r)
  · exact Or.inr ⟨_, cellOut_val D γ hγ i j h0 h1 h2 hfin⟩
  · have e0 : x0 = XReal.posInf := by
      rcases h0 with rfl | ⟨r, rfl⟩
      · rfl
      · exact absurd (Or.inl ⟨r, rfl⟩) hfin
    have e1 : x1 = XReal.posInf := by
      rcases h1 with rfl | ⟨r, rfl⟩
      · rfl
      · exact absurd (Or.inr (Or.inl ⟨r, rfl⟩)) hfin
    have e2 : x2 = XReal.posInf := by
      rcases h2 with rfl | ⟨r, rfl⟩
      · rfl
      · exact absurd (Or.inr (Or.inr ⟨r, rfl⟩)) hfin
    subst e0; subst e1; subst e2
    left
    have hng : ¬ γ < 0 := lt_asymm hγ
    have hml : (-γ : ℝ) < 0 := neg_lt_zero.mpr hγ
    have h3 : ((1 : ℝ) + 1 + 1) ≠ 0 := by norm_num
    simp [cellOut, softmin3, rmax3, xneg, xdiv, xmax, xsub, xexp, xadd, xlog, xscale,
      hng, hml, h3, Real.exp_zero]

theorem prunedCell_iff (w i j : ℕ) :
    prunedCell w i j ↔ 0 < w ∧ ((w : ℤ) < (i : ℤ) - j ∨ (w : ℤ) < (j : ℤ) - i) := by
  unfold prunedCell
  rw [lt_abs]
  constructor
  · rintro ⟨hw, h⟩; exact ⟨hw, by omega⟩
  · rintro ⟨hw, h⟩; exact ⟨hw, by omega⟩

/-- Every cell of the dependency-ordered forward grid is `+inf` or finite,
never `-inf`. -/
theorem softdtwRec_reach (D : ℕ → ℕ → ℝ) (γ : ℝ) (hγ : 0 < γ) (w N M i j : ℕ) :
    Reach (softdtwRec D γ w N M i j) := by
  have key : ∀ k i j, i + j = k → Reach (softdtwRec D γ w N M i j) := by
    intro k
    induction k using Nat.strong_induction_on with
    | _ k IH =>
      intro i j hk
      by_cases h : interior N M i j ∧ ¬ prunedCell w i j
      · rw [softdtwRec_active D γ w N M i j h.1 h.2]
        obtain ⟨⟨hi1, hi2, hj1, hj2⟩, -⟩ := h
        exact cellOut_reach D γ hγ i j
          (IH (i - 1 + (j - 1)) (by omega) (i - 1) (j - 1) rfl)
          (IH (i - 1 + j) (by omega) (i - 1) j rfl)
          (IH (i + (j - 1)) (by omega) i (j - 1) rfl)
      · rw [softdtwRec_eq, if_neg h]
        by_cases h0 : i = 0 ∧ j = 0
        · rw [if_pos h0]; exact Or.inr ⟨0, rfl⟩
        · rw [if_neg h0]; exact Or.inl rfl
  exact key (i + j) i j rfl

/-- Every active interior cell of the forward grid holds a finite value. -/
theorem softdtwRec_active_val (D : ℕ → ℕ → ℝ) (γ : ℝ) (hγ : 0 < γ) (w N M : ℕ) :
    ∀ i j, interior N M i j → ¬ prunedCell w i j →
      ∃ r, softdtwRec D γ w N M i j = XReal.val r := by
  have key : ∀ k i j, i + j = k → interior N M i j → ¬ prunedCell w i j →
      ∃ r, softdtwRec D γ w N M i j = XReal.val r := by
    intro k
    induction k using Nat.strong_induction_on with
    | _ k IH =>
      intro i j hk hint hact
      obtain ⟨hi1, hi2, hj1, hj2⟩ := hint
      rw [softdtwRec_active D γ w N M i j ⟨hi1, hi2, hj1, hj2⟩ hact]
      have r0 := softdtwRec_reach D γ hγ w N M (i - 1) (j - 1)
      have r1 := softdtwRec_reach D γ hγ w N M (i - 1) j
      have r2 := softdtwRec_reach D γ hγ w N M i (j - 1)
      have hfin : (∃ r, softdtwRec D γ w N M (i - 1) (j - 1) = XReal.val r) ∨
          (∃ r, softdtwRec D γ w N M (i - 1) j = XReal.val r) ∨
          (∃ r, softdtwRec D γ w N M i (j - 1) = XReal.val r) := by
        by_cases hi : 2 ≤ i
        · by_cases hj : 2 ≤ j
          · exact Or.inl (IH (i - 1 + (j - 1)) (by omega) (i - 1) (j - 1) rfl
              ⟨by omega, by omega, by omega, by omega⟩
              (by rw [prunedCell_iff] at hact ⊢; omega))
          · exact Or.inr (Or.inl (IH (i - 1 + j) (by omega) (i - 1) j rfl
              ⟨by omega, by omega, by omega, by omega⟩
              (by rw [prunedCell_iff] at hact ⊢; omega)))
        · by_cases hj : 2 ≤ j
          · exact Or.inr (Or.inr (IH (i + (j - 1)) (by omega) i (j - 1) rfl
              ⟨by omega, by omega, by omega, by omega⟩
              (by rw [prunedCell_iff] at hact ⊢; omega)))
          · refine Or.inl ⟨0, ?_⟩
            have ei : i = 1 := by omega
            have ej : j = 1 := by omega
            subst ei; subst ej
            simpa using softdtwRec_origin D γ w N M
      exact ⟨_, cellOut_val D γ hγ i j r0 r1 r2 hfin⟩
  exact fun i j => key (i + j) i j rfl

/-- At every active interior cell at least one of the three predecessor
cells holds a finite value. -/
theorem softdtwRec_pred_val (D : ℕ → ℕ → ℝ) (γ : ℝ) (hγ : 0 < γ) (w N M i j : ℕ)
    (hint : interior N M i j) (hact : ¬ prunedCell w i j) :
    (∃ r, softdtwRec D γ w N M (i - 1) (j - 1) = XReal.val r) ∨
      (∃ r, softdtwRec D γ w N M (i - 1) j = XReal.val r) ∨
      (∃ r, softdtwRec D γ w N M i (j - 1) = XReal.val r) := by
  obtain ⟨hi1, hi2, hj1, hj2⟩ := hint
  by_cases hi : 2 ≤ i
  · by_cases hj : 2 ≤ j
    · exact Or.inl (softdtwRec_active_val D γ hγ w N M (i - 1) (j - 1)
        ⟨by omega, by omega, by omega, by omega⟩
        (by rw [prunedCell_iff] at hact ⊢; omega))
    · exact Or.inr (Or.inl (softdtwRec_active_val D γ hγ w N M (i - 1) j
        ⟨by omega, by omega, by omega, by omega⟩
        (by rw [prunedCell_iff] at hact ⊢; omega)))
  · by_cases hj : 2 ≤ j
    · exact Or.inr (Or.inr (softdtwRec_active_val D γ hγ w N M i (j - 1)
        ⟨by omega, by omega, by omega, by omega⟩
        (by rw [prunedCell_iff] at hact ⊢; omega)))
    · refine Or.inl ⟨0, ?_⟩
      have ei : i = 1 := by omega
      have ej : j = 1 := by omega
      subst ei; subst ej
      simpa using softdtwRec_origin D γ w N M

theorem fwdStep_other (D : ℕ → ℕ → ℝ) (γ : ℝ) (w : ℕ) (g : Grid) (i j a b : ℕ)
    (h : ¬ (a = i ∧ b = j)) : fwdStep D γ w g i j a b = g a b := by
  by_cases hp : prunedCell w i j
  · rw [fwdStep, if_pos hp]
  · rw [fwdStep, if_neg hp]
    exact updateCell_other g i j a b _ h

theorem fwdInner_preserve (D : ℕ → ℕ → ℝ) (γ : ℝ) (w j : ℕ) :
    ∀ n (g : Grid) a b, (b ≠ j ∨ a = 0 ∨ n < a) → fwdInner D γ w j n g a b = g a b := by
  intro n
  induction n with
  | zero => intro g a b _; rfl
  | succ n IH =>
    intro g a b h
    have hne : ¬ (a = n + 1 ∧ b = j) := by
      rintro ⟨rfl, rfl⟩
      rcases h with h | h | h
      · exact h rfl
      · omega
      · omega
    rw [fwdInner, fwdStep_other D γ w _ _ _ _ _ hne]
    apply IH
    rcases h with h | h | h
    · exact Or.inl h
    · exact Or.inr (Or.inl h)
    · exact Or.inr (Or.inr (by omega))

theorem fwdInner_col (D : ℕ → ℕ → ℝ) (γ : ℝ) (w N M j : ℕ) (hj1 : 1 ≤ j) (hjM : j ≤ M)
    (g : Grid)
    (hg1 : ∀ a b, b < j → g a b = softdtwRec D γ w N M a b)
    (hg2 : ∀ a b, j ≤ b → g a b = initR a b) :
    ∀ n, n ≤ N → ∀ a, 1 ≤ a → a ≤ n →
      fwdInner D γ w j n g a j = softdtwRec D γ w N M a j := by
  intro n
  induction n with
  | zero => intro _ a h1 h2; omega
  | succ n IH =>
    intro hn a h1 h2
    have hcol : ∀ b, b < j → fwdInner D γ w j n g a b = softdtwRec D γ w N M a b := by
      intro b hb
      rw [fwdInner_preserve D γ w j n g a b (Or.inl (by omega))]
      exact hg1 a b hb
    by_cases ha : a ≤ n
    · rw [fwdInner, fwdStep_other D γ w _ _ _ _ _ (by rintro ⟨rfl, -⟩; omega)]
      exact IH (by omega) a h1 ha
    · have ea : a = n + 1 := by omega
      subst ea
      -- the previous-row read in the current column
      have hprev : fwdInner D γ w j n g n j = softdtwRec D γ w N M n j := by
        by_cases hn0 : n = 0
        · subst hn0
          rw [fwdInner_preserve D γ w j 0 g 0 j (Or.inr (Or.inl rfl)), hg2 0 j (le_refl j)]
          rw [softdtwRec_eq_initR_of_notInterior D γ w N M 0 j (by rintro ⟨h, -⟩; omega)]
        · exact IH (by omega) n (by omega) (le_refl n)
      have hdiag : fwdInner D γ w j n g n (j - 1) = softdtwRec D γ w N M n (j - 1) := by
        rw [fwdInner_preserve D γ w j n g n (j - 1) (Or.inl (by omega))]
        exact hg1 n (j - 1) (by omega)
      have hleft : fwdInner D γ w j n g (n + 1) (j - 1) = softdtwRec D γ w N M (n + 1) (j - 1) := by
        rw [fwdInner_preserve D γ w j n g (n + 1) (j - 1) (Or.inl (by omega))]
        exact hg1 (n + 1) (j - 1) (by omega)
      by_cases hp : prunedCell w (n + 1) j
      · rw [fwdInner, fwdStep, if_pos hp]
        rw [fwdInner_preserve D γ w j n g (n + 1) j (Or.inr (Or.inr (by omega)))]
        rw [hg2 (n + 1) j (le_refl j)]
        rw [softdtwRec_pruned D γ w N M (n + 1) j ⟨by omega, by omega, hj1, hjM⟩ hp]
        simp [initR]
      · rw [fwdInner, fwdStep, if_neg hp, updateCell_same]
        have : (n + 1 : ℕ) - 1 = n := by omega
        rw [this, hdiag, hprev, hleft]
        exact (softdtwRec_active D γ w N M (n + 1) j ⟨by omega, by omega, hj1, hjM⟩ hp).symm

theorem fwdOuter_spec (D : ℕ → ℕ → ℝ) (γ : ℝ) (w N M : ℕ) :
    ∀ m, m ≤ M →
      (∀ a b, 1 ≤ b → b ≤ m → 1 ≤ a → a ≤ N →
        fwdOuter D γ w N m a b = softdtwRec D γ w N M a b) ∧
      (∀ a b, (b = 0 ∨ m < b ∨ a = 0 ∨ N < a) → fwdOuter D γ w N m a b = initR a b) := by
  intro m
  induction m with
  | zero =>
    intro _
    exact ⟨fun a b h1 h2 _ _ => by omega, fun a b _ => rfl⟩
  | succ m IH =>
    intro hm
    obtain ⟨IHA, IHB⟩ := IH (by omega)
    have hg1 : ∀ a b, b < m + 1 → fwdOuter D γ w N m a b = softdtwRec D γ w N M a b := by
      intro a b hb
      by_cases hint : 1 ≤ b ∧ 1 ≤ a ∧ a ≤ N
      · exact IHA a b hint.1 (by omega) hint.2.1 hint.2.2
      · rw [IHB a b (by omega)]
        rw [softdtwRec_eq_initR_of_notInterior D γ w N M a b (by rintro ⟨x1, x2, x3, x4⟩; omega)]
    have hg2 : ∀ a b, m + 1 ≤ b → fwdOuter D γ w N m a b = initR a b := by
      intro a b hb
      exact IHB a b (by omega)
    constructor
    · intro a b h1 h2 h3 h4
      by_cases hb : b = m + 1
      · subst hb
        exact fwdInner_col D γ w N M (m + 1) (by omega) hm (fwdOuter D γ w N m) hg1 hg2 N
          (le_refl N) a h3 h4
      · rw [show fwdOuter D γ w N (m + 1) = fwdInner D γ w (m + 1) N (fwdOuter D γ w N m) from rfl]
        rw [fwdInner_preserve D γ w (m + 1) N _ a b (Or.inl hb)]
        exact IHA a b h1 (by omega) h3 h4
    · intro a b hcond
      rw [show fwdOuter D γ w N (m + 1) = fwdInner D γ w (m + 1) N (fwdOuter D γ w N m) from rfl]
      by_cases hb : b = m + 1
      · subst hb
        have ha : a = 0 ∨ N < a := by omega
        rw [fwdInner_preserve D γ w (m + 1) N _ a (m + 1) (Or.inr ha)]
        exact hg2 a (m + 1) (le_refl _)
      · rw [fwdInner_preserve D γ w (m + 1) N _ a b (Or.inl hb)]
        exact IHB a b (by omega)

/-- The sequential nested-loop schedule computes exactly the dependency-ordered
grid. -/
theorem compute_softdtw_eq_rec (D : ℕ → ℕ → ℝ) (γ : ℝ) (w N M : ℕ) :
    compute_softdtw D γ w N M = softdtwRec D γ w N M := by
  funext a b
  obtain ⟨hA, hB⟩ := fwdOuter_spec D γ w N M M (le_refl M)
  by_cases hint : 1 ≤ b ∧ b ≤ M ∧ 1 ≤ a ∧ a ≤ N
  · exact hA a b hint.1 hint.2.1 hint.2.2.1 hint.2.2.2
  · rw [show compute_softdtw D γ w N M = fwdOuter D γ w N M from rfl]
    rw [hB a b (by omega)]
    rw [softdtwRec_eq_initR_of_notInterior D γ w N M a b (by rintro ⟨x1, x2, x3, x4⟩; omega)]

/-- The per-thread clamped column index `J = max(0, min(p - tid, max_j - 1))`
of the CUDA kernels (source lines 34 and 71). -/
def cudaJ (M p tid : ℕ) : ℤ := max 0 (min ((p : ℤ) - tid) ((M : ℤ) - 1))

/-- The write condition of `compute_softdtw_cuda` (source line 41): on pass
`p`, some thread `tid < max(N, M)` with row `I = tid` and clamped column `J`
satisfies `I + J == p`, `I < max_i`, `J < max_j`, and writes padded cell
`(i, j) = (I + 1, J + 1)`. -/
def cudaThreadHits (N M p i j : ℕ) : Prop :=
  ∃ tid : ℕ, tid < max N M ∧ (tid : ℤ) + cudaJ M p tid = p ∧ tid < N ∧ cudaJ M p tid < M ∧
    i = tid + 1 ∧ (j : ℤ) = cudaJ M p tid + 1

/-- The thread guard of the CUDA kernel selects exactly the interior cells of
anti-diagonal `i + j = p + 2`. -/
theorem cudaThreadHits_iff (N M p i j : ℕ) :
    cudaThreadHits N M p i j ↔ interior N M i j ∧ i + j = p + 2 := by
  constructor
  · rintro ⟨tid, htid, hsum, hI, hJ, rfl, hj⟩
    have h0 : (0 : ℤ) ≤ cudaJ M p tid := le_max_left _ _
    exact ⟨⟨by omega, by omega, by omega, by omega⟩, by omega⟩
  · rintro ⟨⟨hi1, hi2, hj1, hj2⟩, hp⟩
    have hJd : cudaJ M p (i - 1) = (j : ℤ) - 1 := by
      unfold cudaJ
      omega
    exact ⟨i - 1, by omega, by rw [hJd]; omega, by omega, by rw [hJd]; omega, by omega,
      by rw [hJd]; omega⟩

/-- One anti-diagonal pass `p` of `compute_softdtw_cuda` (source lines
31-53): every hit, unpruned cell is computed from the pre-pass grid; the
`cuda.syncthreads()` barrier separates successive passes, and all reads are
of cells on strictly earlier diagonals. -/
def diagStep (D : ℕ → ℕ → ℝ) (γ : ℝ) (w N M : ℕ) (g : Grid) (p : ℕ) : Grid :=
  fun i j =>
    if cudaThreadHits N M p i j ∧ ¬ prunedCell w i j then
      cellOut D γ i j (g (i - 1) (j - 1)) (g (i - 1) j) (g i (j - 1))
    else g i j

def diagLoop (D : ℕ → ℕ → ℝ) (γ : ℝ) (w N M : ℕ) : ℕ → Grid
  | 0 => initR
  | p + 1 => diagStep D γ w N M (diagLoop D γ w N M p) p

/-- Model of `compute_softdtw_cuda` (source lines 11-53) for one batch
element: `n_passes = 2 * max(N, M) - 1` anti-diagonal passes, one thread per
row, over the same padded grid initialisation as the sequential code. -/
def compute_softdtw_cuda (D : ℕ → ℕ → ℝ) (γ : ℝ) (w N M : ℕ) : Grid :=
  diagLoop D γ w N M (2 * max N M - 1)

theorem diagLoop_spec (D : ℕ → ℕ → ℝ) (γ : ℝ) (w N M : ℕ) :
    ∀ q i j, diagLoop D γ w N M q i j =
      if interior N M i j ∧ q + 1 < i + j then initR i j else softdtwRec D γ w N M i j := by
  intro q
  induction q with
  | zero =>
    intro i j
    by_cases h : interior N M i j ∧ 0 + 1 < i + j
    · rw [if_pos h]; rfl
    · rw [if_neg h]
      have hni : ¬ interior N M i j := by
        intro hint
        obtain ⟨h1, h2, h3, h4⟩ := hint
        exact h ⟨⟨h1, h2, h3, h4⟩, by omega⟩
      rw [softdtwRec_eq_initR_of_notInterior D γ w N M i j hni]; rfl
  | succ q IH =>
    intro i j
    rw [show diagLoop D γ w N M (q + 1) = diagStep D γ w N M (diagLoop D γ w N M q) q from rfl]
    unfold diagStep
    by_cases hh : cudaThreadHits N M q i j ∧ ¬ prunedCell w i j
    · rw [if_pos hh]
      obtain ⟨hhit, hact⟩ := hh
      rw [cudaThreadHits_iff] at hhit
      obtain ⟨hint, hsum⟩ := hhit
      obtain ⟨h1, h2, h3, h4⟩ := hint
      have p0 : diagLoop D γ w N M q (i - 1) (j - 1) = softdtwRec D γ w N M (i - 1) (j - 1) := by
        rw [IH (i - 1) (j - 1), if_neg]
        rintro ⟨-, habs⟩; omega
      have p1 : diagLoop D γ w N M q (i - 1) j = softdtwRec D γ w N M (i - 1) j := by
        rw [IH (i - 1) j, if_neg]
        rintro ⟨-, habs⟩; omega
      have p2 : diagLoop D γ w N M q i (j - 1) = softdtwRec D γ w N M i (j - 1) := by
        rw [IH i (j - 1), if_neg]
        rintro ⟨-, habs⟩; omega
      rw [p0, p1, p2, if_neg (by rintro ⟨-, habs⟩; omega)]
      exact (softdtwRec_active D γ w N M i j ⟨h1, h2, h3, h4⟩ hact).symm
    · rw [if_neg hh, IH i j]
      by_cases hc2 : interior N M i j ∧ q + 1 < i + j
      · rw [if_pos hc2]
        by_cases hc : interior N M i j ∧ q + 1 + 1 < i + j
        · rw [if_pos hc]
        · rw [if_neg hc]
          obtain ⟨hint, hq⟩ := hc2
          have hsum : i + j = q + 2 := by
            obtain ⟨h1, h2, h3, h4⟩ := hint
            by_contra hne
            exact hc ⟨⟨h1, h2, h3, h4⟩, by omega⟩
          have hhit : cudaThreadHits N M q i j := (cudaThreadHits_iff N M q i j).mpr ⟨hint, hsum⟩
          have hpr : prunedCell w i j := by
            by_contra hnp
            exact hh ⟨hhit, hnp⟩
          rw [softdtwRec_pruned D γ w N M i j hint hpr]
          obtain ⟨h1, -, -, -⟩ := hint
          simp only [initR]
          rw [if_neg (by omega : ¬ (i = 0 ∧ j = 0))]
      · rw [if_neg hc2, if_neg (by rintro ⟨hint, hq⟩; exact hc2 ⟨hint, by omega⟩)]

/-- The anti-diagonal wavefront schedule computes exactly the
dependency-ordered grid. -/
theorem compute_softdtw_cuda_eq_rec (D : ℕ → ℕ → ℝ) (γ : ℝ) (w N M : ℕ) :
    compute_softdtw_cuda D γ w N M = softdtwRec D γ w N M := by
  funext i j
  rw [show compute_softdtw_cuda D γ w N M = diagLoop D γ w N M (2 * max N M - 1) from rfl]
  rw [diagLoop_spec]
  have hcond : ¬ (interior N M i j ∧ 2 * max N M - 1 + 1 < i + j) := by
    rintro ⟨⟨h1, h2, h3, h4⟩, habs⟩
    omega
  rw [if_neg hcond]

/-- Translation of a (possibly negative) numpy index into an absolute index
on an axis of length `len`. -/
def npIdx (len : ℕ) (k : ℤ) : ℕ := if k < 0 then (k + len).toNat else k.toNat

theorem npIdx_neg (len : ℕ) (k : ℤ) (hk : k < 0) : npIdx len k = (k + len).toNat := by
  unfold npIdx; rw [if_pos hk]

/-- The value extraction of `_SoftDTW.forward` (source lines 351-370) and
`_SoftDTWCUDA.forward` (lines 125-141): read the grid at the branch-selected
cell, with `l1 = N`, `l2 = M`, `bw = w` and numpy (negative) indexing. -/
def readV (g : Grid) (N M w : ℕ) : XReal :=
  if N < M then
    if (w : ℤ) ≥ |(N : ℤ) - M| ∨ w = 0 then g (npIdx (N + 2) (-2)) (npIdx (M + 2) (-2))
    else g (npIdx (N + 2) (-2)) (npIdx (M + 2) ((N : ℤ) - M + w - 2))
  else if M < N then
    if (w : ℤ) ≥ |(N : ℤ) - M| ∨ w = 0 then g (npIdx (N + 2) (-2)) (npIdx (M + 2) (-2))
    else g (npIdx (N + 2) ((M : ℤ) - N + w - 2)) (npIdx (M + 2) (-2))
  else g (npIdx (N + 2) (-2)) (npIdx (M + 2) (-2))

/-- The per-batch-element value returned by `align` on the sequential backend
(`_SoftDTW.forward`, source lines 339-370). -/
def softdtw_forward (D : ℕ → ℕ → ℝ) (γ : ℝ) (w N M : ℕ) : XReal :=
  readV (compute_softdtw D γ w N M) N M w

/-- The per-batch-element value returned by `align` on the CUDA backend
(`_SoftDTWCUDA.forward`, source lines 100-141). -/
def softdtw_cuda_forward (D : ℕ → ℕ → ℝ) (γ : ℝ) (w N M : ℕ) : XReal :=
  readV (compute_softdtw_cuda D γ w N M) N M w

/-- The terminal cell as described by the specification: `(N, M)` when
`N = M`, `w = 0` or `w ≥ |N - M|`; otherwise `(N, N + w)` when `N < M`, and
`(M + w, M)` when `N > M`. -/
def terminalCellSpec (N M w : ℕ) : ℕ × ℕ :=
  if N = M ∨ w = 0 ∨ ((N : ℤ) - M).natAbs ≤ w then (N, M)
  else if N < M then (N, N + w) else (M + w, M)

theorem readV_eq_terminal (g : Grid) (N M w : ℕ) :
    readV g N M w = g (terminalCellSpec N M w).1 (terminalCellSpec N M w).2 := by
  have habs : |(N : ℤ) - M| = (((N : ℤ) - M).natAbs : ℤ) := Int.abs_eq_natAbs _
  have hm2 : ∀ L : ℕ, npIdx (L + 2) (-2) = L := by
    intro L; rw [npIdx_neg _ _ (by norm_num)]; omega
  unfold readV terminalCellSpec
  by_cases h1 : N < M
  · rw [if_pos h1]
    by_cases h2 : (w : ℤ) ≥ |(N : ℤ) - M| ∨ w = 0
    · rw [if_pos h2, if_pos (by rw [habs] at h2; omega), hm2 N, hm2 M]
    · rw [if_neg h2, if_neg (by rw [habs] at h2; omega), if_pos h1, hm2 N]
      have hcol : npIdx (M + 2) ((N : ℤ) - M + w - 2) = N + w := by
        rw [habs] at h2
        rw [npIdx_neg _ _ (by omega)]
        omega
      rw [hcol]
  · rw [if_neg h1]
    by_cases h3 : M < N
    · rw [if_pos h3]
      by_cases h2 : (w : ℤ) ≥ |(N : ℤ) - M| ∨ w = 0
      · rw [if_pos h2, if_pos (by rw [habs] at h2; omega), hm2 N, hm2 M]
      · rw [if_neg h2, if_neg (by rw [habs] at h2; omega), if_neg (by omega), hm2 M]
        have hrow : npIdx (N + 2) ((M : ℤ) - N + w - 2) = M + w := by
          rw [habs] at h2
          rw [npIdx_neg _ _ (by omega)]
          omega
        rw [hrow]
    · rw [if_neg h3, if_pos (Or.inl (by omega)), hm2 N, hm2 M]

/-- Setting a whole grid column (numpy `R[:, :, c] = v`). -/
def setCol (g : Grid) (c : ℕ) (v : XReal) : Grid := fun i j => if j = c then v else g i j

/-- Setting a whole grid row (numpy `R[:, r, :] = v`). -/
def setRow (g : Grid) (r : ℕ) (v : XReal) : Grid := fun i j => if i = r then v else g i j

/-- The all-zero adjoint grid before seeding (`E = np.zeros(...)`). -/
def zeroE : Grid := fun _ _ => .val 0

/-- The `R` boundary adjustment shared by the `N = M` and wide-band branches
of `compute_softdtw_backward` (source lines 274-278, 290-294, 305-309):
force `R[:, -1]` and `R[-1, :]` to `-inf`, then copy `R[-1,-1] = R[-2,-2]`. -/
def wideSetupR (Rf : Grid) (N M : ℕ) : Grid :=
  updateCell (setRow (setCol Rf (npIdx (M + 2) (-1)) .negInf) (npIdx (N + 2) (-1)) .negInf)
    (npIdx (N + 2) (-1)) (npIdx (M + 2) (-1))
    ((setRow (setCol Rf (npIdx (M + 2) (-1)) .negInf) (npIdx (N + 2) (-1)) .negInf)
      (npIdx (N + 2) (-2)) (npIdx (M + 2) (-2)))

/-- The `R` boundary adjustment of `compute_softdtw_backward` (source lines
265-309), with `l1 = N`, `l2 = M`, `bw = w`. -/
def bwdSetupR (Rf : Grid) (N M w : ℕ) : Grid :=
  if N < M then
    if (w : ℤ) ≥ |(N : ℤ) - M| ∨ w = 0 then wideSetupR Rf N M
    else
      updateCell
        (setRow (setCol Rf (npIdx (M + 2) ((N : ℤ) - M + w - 1)) .negInf)
          (npIdx (N + 2) (-1)) .negInf)
        (npIdx (N + 2) (-1)) (npIdx (M + 2) ((N : ℤ) - M + w - 1))
        ((setRow (setCol Rf (npIdx (M + 2) ((N : ℤ) - M + w - 1)) .negInf)
            (npIdx (N + 2) (-1)) .negInf)
          (npIdx (N + 2) (-2)) (npIdx (M + 2) ((N : ℤ) - M + w - 2)))
  else if M < N then
    if (w : ℤ) ≥ |(N : ℤ) - M| ∨ w = 0 then wideSetupR Rf N M
    else
      updateCell
        (setRow (setCol Rf (npIdx (M + 2) (-1)) .negInf)
          (npIdx (N + 2) ((M : ℤ) - N + w - 1)) .negInf)
        (npIdx (N + 2) ((M : ℤ) - N + w - 1)) (npIdx (M + 2) (-1))
        ((setRow (setCol Rf (npIdx (M + 2) (-1)) .negInf)
            (npIdx (N + 2) ((M : ℤ) - N + w - 1)) .negInf)
          (npIdx (N + 2) ((M : ℤ) - N + w - 2)) (npIdx (M + 2) (-2)))
  else wideSetupR Rf N M

/-- The seeded adjoint grid of `compute_softdtw_backward` (source lines 273,
280, 289, 296, 304): all zeros with a single `1` at the branch-selected
sentinel cell. -/
def bwdSeedE (N M w : ℕ) : Grid :=
  if N < M then
    if (w : ℤ) ≥ |(N : ℤ) - M| ∨ w = 0 then
      updateCell zeroE (npIdx (N + 2) (-1)) (npIdx (M + 2) (-1)) (.val 1)
    else
      updateCell zeroE (npIdx (N + 2) (-1)) (npIdx (M + 2) ((N : ℤ) - M + w - 1)) (.val 1)
  else if M < N then
    if (w : ℤ) ≥ |(N : ℤ) - M| ∨ w = 0 then
      updateCell zeroE (npIdx (N + 2) (-1)) (npIdx (M + 2) (-1)) (.val 1)
    else
      updateCell zeroE (npIdx (N + 2) ((M : ℤ) - N + w - 1)) (npIdx (M + 2) (-1)) (.val 1)
  else updateCell zeroE (npIdx (N + 2) (-1)) (npIdx (M + 2) (-1)) (.val 1)

/-- The boundary setup of `compute_softdtw_backward`: the boundary-adjusted
`R` and the seeded adjoint grid `E` (the two arrays are written
independently by the source branches). -/
def bwdSetup (Rf : Grid) (N M w : ℕ) : Grid × Grid :=
  (bwdSetupR Rf N M w, bwdSeedE N M w)

/-- The padded cost grid `D` of the backward pass (source lines 261-263):
interior = the cost matrix, border = 0. -/
def padD (D_ : ℕ → ℕ → ℝ) (N M : ℕ) : ℕ → ℕ → ℝ :=
  fun i j => if interior N M i j then D_ (i - 1) (j - 1) else 0

/-- The `R` update of one backward loop iteration (source lines 315-316):
replace an infinite `R[i,j]` (`np.isinf` is true on both infinities) by
`-inf`. -/
def bwdR1 (s : Grid × Grid) (i j : ℕ) : Grid :=
  if isInfX (s.1 i j) then updateCell s.1 i j .negInf else s.1

/-- The adjoint value written into `E[i,j]` by one backward loop iteration
(source lines 322-328), reading the already-updated `R`. -/
def bwdEVal (Dp : ℕ → ℕ → ℝ) (γ : ℝ) (s : Grid × Grid) (i j : ℕ) : XReal :=
  xadd (xadd
    (xmul (s.2 (i + 1) j)
      (xexp (xdiv (xsub (xsub (bwdR1 s i j (i + 1) j) (bwdR1 s i j i j))
        (.val (Dp (i + 1) j))) γ)))
    (xmul (s.2 i (j + 1))
      (xexp (xdiv (xsub (xsub (bwdR1 s i j i (j + 1)) (bwdR1 s i j i j))
        (.val (Dp i (j + 1)))) γ))))
    (xmul (s.2 (i + 1) (j + 1))
      (xexp (xdiv (xsub (xsub (bwdR1 s i j (i + 1) (j + 1)) (bwdR1 s i j i j))
        (.val (Dp (i + 1) (j + 1)))) γ)))

/-- One iteration of the backward loop body (source lines 315-328): replace
an infinite `R[i,j]` by `-inf`, skip the cell if pruned, otherwise write the
adjoint recurrence value into `E[i,j]`. -/
def bwdStep (Dp : ℕ → ℕ → ℝ) (γ : ℝ) (w : ℕ) (s : Grid × Grid) (i j : ℕ) : Grid × Grid :=
  if prunedCell w i j then (bwdR1 s i j, s.2)
  else (bwdR1 s i j, updateCell s.2 i j (bwdEVal Dp γ s i j))

/-- The inner backward loop `for i in range(N, 0, -1)` at fixed column `j`,
processing rows `n, n-1, ..., 1`. -/
def bwdInner (Dp : ℕ → ℕ → ℝ) (γ : ℝ) (w j : ℕ) : ℕ → Grid × Grid → Grid × Grid
  | 0, s => s
  | n + 1, s => bwdInner Dp γ w j n (bwdStep Dp γ w s (n + 1) j)

/-- The outer backward loop `for j in range(M, 0, -1)`, processing columns
`m, m-1, ..., 1`, each sweeping rows `N, ..., 1`. -/
def bwdOuter (Dp : ℕ → ℕ → ℝ) (γ : ℝ) (w N : ℕ) : ℕ → Grid × Grid → Grid × Grid
  | 0, s => s
  | m + 1, s => bwdOuter Dp γ w N m (bwdInner Dp γ w (m + 1) N s)

/-- The state `(R, E)` at the end of `compute_softdtw_backward` (source lines
254-328): boundary setup followed by the reverse sweep. -/
def bwdFinal (D_ : ℕ → ℕ → ℝ) (Rf : Grid) (γ : ℝ) (w N M : ℕ) : Grid × Grid :=
  bwdOuter (padD D_ N M) γ w N M (bwdSetup Rf N M w)

/-- Model of `compute_softdtw_backward`'s return value `E[:, 1:N+1, 1:M+1]`
(source line 330), 0-indexed over the cost matrix. -/
def compute_softdtw_backward (D_ : ℕ → ℕ → ℝ) (Rf : Grid) (γ : ℝ) (w N M : ℕ) :
    ℕ → ℕ → XReal :=
  fun i j => (bwdFinal D_ Rf γ w N M).2 (i + 1) (j + 1)

theorem terminalCellSpec_wide (N M w : ℕ)
    (h : N = M ∨ w = 0 ∨ ((N : ℤ) - M).natAbs ≤ w) : terminalCellSpec N M w = (N, M) := by
  unfold terminalCellSpec
  rw [if_pos h]

theorem terminalCellSpec_narrow_lt (N M w : ℕ) (h1 : N < M)
    (h : ¬ (N = M ∨ w = 0 ∨ ((N : ℤ) - M).natAbs ≤ w)) :
    terminalCellSpec N M w = (N, N + w) := by
  unfold terminalCellSpec
  rw [if_neg h, if_pos h1]

theorem terminalCellSpec_narrow_gt (N M w : ℕ) (h1 : M < N)
    (h : ¬ (N = M ∨ w = 0 ∨ ((N : ℤ) - M).natAbs ≤ w)) :
    terminalCellSpec N M w = (M + w, M) := by
  unfold terminalCellSpec
  rw [if_neg h, if_neg (by omega)]

/-- The adjoint seed is `1` exactly at the one-past-terminal sentinel cell
and `0` everywhere else. -/
theorem bwdSeedE_spec (N M w : ℕ) :
    ∀ i j, bwdSeedE N M w i j =
      if i = (terminalCellSpec N M w).1 + 1 ∧ j = (terminalCellSpec N M w).2 + 1
      then XReal.val 1 else XReal.val 0 := by
  intro i j
  have habs : |(N : ℤ) - M| = (((N : ℤ) - M).natAbs : ℤ) := Int.abs_eq_natAbs _
  have hm1 : ∀ L : ℕ, npIdx (L + 2) (-1) = L + 1 := by
    intro L; rw [npIdx_neg _ _ (by norm_num)]; omega
  unfold bwdSeedE
  by_cases h1 : N < M
  · rw [if_pos h1]
    by_cases h2 : (w : ℤ) ≥ |(N : ℤ) - M| ∨ w = 0
    · rw [if_pos h2, terminalCellSpec_wide N M w (by rw [habs] at h2; omega)]
      rw [hm1 N, hm1 M]
      simp [updateCell, zeroE]
    · rw [if_neg h2, terminalCellSpec_narrow_lt N M w h1 (by rw [habs] at h2; omega)]
      rw [hm1 N]
      have hcol : npIdx (M + 2) ((N : ℤ) - M + w - 1) = N + w + 1 := by
        rw [habs] at h2
        rw [npIdx_neg _ _ (by omega)]
        omega
      rw [hcol]
      simp [updateCell, zeroE]
  · rw [if_neg h1]
    by_cases h3 : M < N
    · rw [if_pos h3]
      by_cases h2 : (w : ℤ) ≥ |(N : ℤ) - M| ∨ w = 0
      · rw [if_pos h2, terminalCellSpec_wide N M w (by rw [habs] at h2; omega)]
        rw [hm1 N, hm1 M]
        simp [updateCell, zeroE]
      · rw [if_neg h2, terminalCellSpec_narrow_gt N M w h3 (by rw [habs] at h2; omega)]
        rw [hm1 M]
        have hrow : npIdx (N + 2) ((M : ℤ) - N + w - 1) = M + w + 1 := by
          rw [habs] at h2
          rw [npIdx_neg _ _ (by omega)]
          omega
        rw [hrow]
        simp [updateCell, zeroE]
    · rw [if_neg h3, terminalCellSpec_wide N M w (Or.inl (by omega))]
      rw [hm1 N, hm1 M]
      simp [updateCell, zeroE]

/-- C1: for every cost matrix of shape `N × M`, `γ > 0` and bandwidth `w`,
the per-batch-element scalar returned by `align` is the forward grid read at
the terminal cell — interior cell `(N, M)` when `N = M`, or `w = 0`, or
`w ≥ |N - M|`; interior cell `(N, N + w)` when `N < M` and `0 < w < M - N`;
and symmetrically `(M + w, M)` when `N > M` and `0 < w < N - M` — on both the
sequential and the CUDA backend, and the backward pass seeds the adjoint
grid `E` with `1` exactly at the one-past-terminal sentinel cell adjacent to
that same terminal cell. -/
theorem align_reads_terminal_cell (D : ℕ → ℕ → ℝ) (γ : ℝ) (w N M : ℕ) (hγ : 0 < γ)
    (Rf : Grid) :
    softdtw_forward D γ w N M =
        compute_softdtw D γ w N M (terminalCellSpec N M w).1 (terminalCellSpec N M w).2 ∧
      softdtw_cuda_forward D γ w N M =
        compute_softdtw_cuda D γ w N M (terminalCellSpec N M w).1 (terminalCellSpec N M w).2 ∧
      ∀ i j, (bwdSetup Rf N M w).2 i j =
        if i = (terminalCellSpec N M w).1 + 1 ∧ j = (terminalCellSpec N M w).2 + 1
        then XReal.val 1 else XReal.val 0 :=
  ⟨readV_eq_terminal _ N M w, readV_eq_terminal _ N M w, bwdSeedE_spec N M w⟩

/-- Witness for the terminal-cell theorem at the spec's own test shape
`N = 3`, `M = 5`, `w = 1`, where the terminal resolves to `(3, 4)`. -/
theorem align_reads_terminal_cell_witness :
    (0 : ℝ) < 1 ∧
      (softdtw_forward (fun _ _ => 0) 1 1 3 5 =
          compute_softdtw (fun _ _ => 0) 1 1 3 5 (terminalCellSpec 3 5 1).1
            (terminalCellSpec 3 5 1).2 ∧
        softdtw_cuda_forward (fun _ _ => 0) 1 1 3 5 =
          compute_softdtw_cuda (fun _ _ => 0) 1 1 3 5 (terminalCellSpec 3 5 1).1
            (terminalCellSpec 3 5 1).2 ∧
        ∀ i j, (bwdSetup initR 3 5 1).2 i j =
          if i = (terminalCellSpec 3 5 1).1 + 1 ∧ j = (terminalCellSpec 3 5 1).2 + 1
          then XReal.val 1 else XReal.val 0) :=
  ⟨by norm_num, align_reads_terminal_cell (fun _ _ => 0) 1 1 3 5 (by norm_num) initR⟩

/-- The terminal cell of the specification is always an interior, unpruned
cell (for `N, M ≥ 1`). -/
theorem terminalCellSpec_active (N M w : ℕ) (hN : 1 ≤ N) (hM : 1 ≤ M) :
    interior N M (terminalCellSpec N M w).1 (terminalCellSpec N M w).2 ∧
      ¬ prunedCell w (terminalCellSpec N M w).1 (terminalCellSpec N M w).2 := by
  unfold terminalCellSpec
  by_cases h1 : N = M ∨ w = 0 ∨ ((N : ℤ) - M).natAbs ≤ w
  · rw [if_pos h1]
    refine ⟨⟨hN, le_refl N, hM, le_refl M⟩, ?_⟩
    rw [prunedCell_iff]
    omega
  · rw [if_neg h1]
    by_cases h2 : N < M
    · rw [if_pos h2]
      refine ⟨⟨hN, le_refl N, by omega, by omega⟩, ?_⟩
      rw [prunedCell_iff]
      omega
    · rw [if_neg h2]
      refine ⟨⟨by omega, by omega, hM, le_refl M⟩, ?_⟩
      rw [prunedCell_iff]
      omega

/-- C2: for every batch of cost matrices with finite entries and `γ > 0`,
the forward accumulator grid satisfies `R[0,0] = 0`; every border cell other
than `(0,0)` and every pruned interior cell holds `+inf`; and every active
interior cell `(i,j)` holds
`cost[i-1,j-1] - γ ln(exp(-R[i-1,j-1]/γ) + exp(-R[i-1,j]/γ) + exp(-R[i,j-1]/γ))`,
the cost plus the soft minimum of the three predecessor cells. -/
theorem forward_grid_spec (D : ℕ → ℕ → ℝ) (γ : ℝ) (w N M : ℕ) (hγ : 0 < γ) :
    compute_softdtw D γ w N M 0 0 = XReal.val 0 ∧
      (∀ i j, i ≤ N + 1 → j ≤ M + 1 → (i = 0 ∨ j = 0 ∨ i = N + 1 ∨ j = M + 1) →
        ¬ (i = 0 ∧ j = 0) → compute_softdtw D γ w N M i j = XReal.posInf) ∧
      (∀ i j, interior N M i j → prunedCell w i j →
        compute_softdtw D γ w N M i j = XReal.posInf) ∧
      (∀ i j, interior N M i j → ¬ prunedCell w i j →
        compute_softdtw D γ w N M i j =
          xadd (.val (D (i - 1) (j - 1)))
            (directSoftmin γ (compute_softdtw D γ w N M (i - 1) (j - 1))
              (compute_softdtw D γ w N M (i - 1) j) (compute_softdtw D γ w N M i (j - 1)))) := by
  rw [compute_softdtw_eq_rec]
  refine ⟨softdtwRec_origin D γ w N M, ?_, ?_, ?_⟩
  · intro i j hi hj hborder hnz
    refine softdtwRec_notInterior D γ w N M i j ?_ hnz
    rintro ⟨h1, h2, h3, h4⟩
    omega
  · intro i j hint hpr
    exact softdtwRec_pruned D γ w N M i j hint hpr
  · intro i j hint hact
    rw [softdtwRec_active D γ w N M i j hint hact]
    unfold cellOut
    congr 1
    exact softmin3_eq_directSoftmin γ hγ
      (softdtwRec_reach D γ hγ w N M (i - 1) (j - 1))
      (softdtwRec_reach D γ hγ w N M (i - 1) j)
      (softdtwRec_reach D γ hγ w N M i (j - 1))
      (softdtwRec_pred_val D γ hγ w N M i j hint hact)

/-- Witness for the forward-grid theorem at `γ = 1`, `w = 0`, `N = M = 1`,
zero cost. -/
theorem forward_grid_spec_witness :
    (0 : ℝ) < 1 ∧
      (compute_softdtw (fun _ _ => 0) 1 0 1 1 0 0 = XReal.val 0 ∧
        (∀ i j, i ≤ 1 + 1 → j ≤ 1 + 1 → (i = 0 ∨ j = 0 ∨ i = 1 + 1 ∨ j = 1 + 1) →
          ¬ (i = 0 ∧ j = 0) → compute_softdtw (fun _ _ => 0) 1 0 1 1 i j = XReal.posInf) ∧
        (∀ i j, interior 1 1 i j → prunedCell 0 i j →
          compute_softdtw (fun _ _ => 0) 1 0 1 1 i j = XReal.posInf) ∧
        (∀ i j, interior 1 1 i j → ¬ prunedCell 0 i j →
          compute_softdtw (fun _ _ => 0) 1 0 1 1 i j =
            xadd (.val ((fun _ _ => (0 : ℝ)) (i - 1) (j - 1)))
              (directSoftmin 1 (compute_softdtw (fun _ _ => 0) 1 0 1 1 (i - 1) (j - 1))
                (compute_softdtw (fun _ _ => 0) 1 0 1 1 (i - 1) j)
                (compute_softdtw (fun _ _ => 0) 1 0 1 1 i (j - 1))))) :=
  ⟨by norm_num, forward_grid_spec (fun _ _ => 0) 1 0 1 1 (by norm_num)⟩

/-- C9: for every batch of cost matrices, `γ > 0` and bandwidth, the
sequential forward pass (nested loops) and the parallel wavefront forward
pass (anti-diagonal frontier with a barrier between diagonals) compute the
same accumulated-cost grid, and hence the same align values, exactly over
real arithmetic. -/
theorem schedules_equivalent (D : ℕ → ℕ → ℝ) (γ : ℝ) (w N M : ℕ) (hγ : 0 < γ) :
    compute_softdtw D γ w N M = compute_softdtw_cuda D γ w N M ∧
      softdtw_forward D γ w N M = softdtw_cuda_forward D γ w N M := by
  have h := (compute_softdtw_eq_rec D γ w N M).trans (compute_softdtw_cuda_eq_rec D γ w N M).symm
  refine ⟨h, ?_⟩
  unfold softdtw_forward softdtw_cuda_forward
  rw [h]

/-- Witness for the schedule-equivalence theorem at `γ = 1`, `w = 1`,
`N = 2`, `M = 3`, zero cost. -/
theorem schedules_equivalent_witness :
    (0 : ℝ) < 1 ∧
      (compute_softdtw (fun _ _ => 0) 1 1 2 3 = compute_softdtw_cuda (fun _ _ => 0) 1 1 2 3 ∧
        softdtw_forward (fun _ _ => 0) 1 1 2 3 = softdtw_cuda_forward (fun _ _ => 0) 1 1 2 3) :=
  ⟨by norm_num, schedules_equivalent (fun _ _ => 0) 1 1 2 3 (by norm_num)⟩

/-- On the all-zero cost matrix every active interior cell of the forward
grid holds a finite non-positive value. -/
theorem softdtwRec_zero_le (γ : ℝ) (hγ : 0 < γ) (w N M : ℕ) :
    ∀ i j, interior N M i j → ¬ prunedCell w i j →
      ∃ r, softdtwRec (fun _ _ => 0) γ w N M i j = XReal.val r ∧ r ≤ 0 := by
  have key : ∀ k i j, i + j = k → interior N M i j → ¬ prunedCell w i j →
      ∃ r, softdtwRec (fun _ _ => 0) γ w N M i j = XReal.val r ∧ r ≤ 0 := by
    intro k
    induction k using Nat.strong_induction_on with
    | _ k IH =>
      intro i j hk hint hact
      obtain ⟨hi1, hi2, hj1, hj2⟩ := hint
      have hpred : (∃ r, softdtwRec (fun _ _ => 0) γ w N M (i - 1) (j - 1) = XReal.val r ∧ r ≤ 0) ∨
          (∃ r, softdtwRec (fun _ _ => 0) γ w N M (i - 1) j = XReal.val r ∧ r ≤ 0) ∨
          (∃ r, softdtwRec (fun _ _ => 0) γ w N M i (j - 1) = XReal.val r ∧ r ≤ 0) := by
        by_cases hi : 2 ≤ i
        · by_cases hj : 2 ≤ j
          · exact Or.inl (IH (i - 1 + (j - 1)) (by omega) (i - 1) (j - 1) rfl
              ⟨by omega, by omega, by omega, by omega⟩
              (by rw [prunedCell_iff] at hact ⊢; omega))
          · exact Or.inr (Or.inl (IH (i - 1 + j) (by omega) (i - 1) j rfl
              ⟨by omega, by omega, by omega, by omega⟩
              (by rw [prunedCell_iff] at hact ⊢; omega)))
        · by_cases hj : 2 ≤ j
          · exact Or.inr (Or.inr (IH (i + (j - 1)) (by omega) i (j - 1) rfl
              ⟨by omega, by omega, by omega, by omega⟩
              (by rw [prunedCell_iff] at hact ⊢; omega)))
          · refine Or.inl ⟨0, ?_, le_refl 0⟩
            have ei : i = 1 := by omega
            have ej : j = 1 := by omega
            subst ei; subst ej
            simpa using softdtwRec_origin (fun _ _ => 0) γ w N M
      have r0 := softdtwRec_reach (fun _ _ => 0) γ hγ w N M (i - 1) (j - 1)
      have r1 := softdtwRec_reach (fun _ _ => 0) γ hγ w N M (i - 1) j
      have r2 := softdtwRec_reach (fun _ _ => 0) γ hγ w N M i (j - 1)
      have hfin : (∃ r, softdtwRec (fun _ _ => 0) γ w N M (i - 1) (j - 1) = XReal.val r) ∨
          (∃ r, softdtwRec (fun _ _ => 0) γ w N M (i - 1) j = XReal.val r) ∨
          (∃ r, softdtwRec (fun _ _ => 0) γ w N M i (j - 1) = XReal.val r) := by
        rcases hpred with ⟨r, hr, -⟩ | ⟨r, hr, -⟩ | ⟨r, hr, -⟩
        · exact Or.inl ⟨r, hr⟩
        · exact Or.inr (Or.inl ⟨r, hr⟩)
        · exact Or.inr (Or.inr ⟨r, hr⟩)
      rw [softdtwRec_active (fun _ _ => 0) γ w N M i j ⟨hi1, hi2, hj1, hj2⟩ hact]
      rw [cellOut_val (fun _ _ => 0) γ hγ i j r0 r1 r2 hfin]
      refine ⟨_, rfl, ?_⟩
      have hws : 1 ≤ wexp γ (softdtwRec (fun _ _ => 0) γ w N M (i - 1) (j - 1)) +
          wexp γ (softdtwRec (fun _ _ => 0) γ w N M (i - 1) j) +
          wexp γ (softdtwRec (fun _ _ => 0) γ w N M i (j - 1)) := by
        have n0 := wexp_nonneg γ (softdtwRec (fun _ _ => 0) γ w N M (i - 1) (j - 1))
        have n1 := wexp_nonneg γ (softdtwRec (fun _ _ => 0) γ w N M (i - 1) j)
        have n2 := wexp_nonneg γ (softdtwRec (fun _ _ => 0) γ w N M i (j - 1))
        have hx : ∀ r : ℝ, r ≤ 0 → 1 ≤ wexp γ (XReal.val r) := by
          intro r hr
          have : (0 : ℝ) ≤ -r / γ := div_nonneg (by linarith) hγ.le
          exact Real.one_le_exp this
        rcases hpred with ⟨r, hr, hle⟩ | ⟨r, hr, hle⟩ | ⟨r, hr, hle⟩ <;>
          (rw [hr]; have := hx r hle; linarith)
      have hlog : 0 ≤ Real.log (wexp γ (softdtwRec (fun _ _ => 0) γ w N M (i - 1) (j - 1)) +
          wexp γ (softdtwRec (fun _ _ => 0) γ w N M (i - 1) j) +
          wexp γ (softdtwRec (fun _ _ => 0) γ w N M i (j - 1))) := Real.log_nonneg hws
      have hmul := mul_nonneg hγ.le hlog
      simp only [neg_mul]
      linarith
  exact fun i j => key (i + j) i j rfl

/-- C6 (amended): on the all-zero cost matrix, `align` returns a finite
non-positive value for every batch element; it is not `0` in general. -/
theorem align_zero_cost_nonpos (γ : ℝ) (w N M : ℕ) (hγ : 0 < γ) (hN : 1 ≤ N) (hM : 1 ≤ M) :
    ∃ r : ℝ, softdtw_forward (fun _ _ => 0) γ w N M = XReal.val r ∧ r ≤ 0 := by
  unfold softdtw_forward
  rw [readV_eq_terminal, compute_softdtw_eq_rec]
  obtain ⟨hint, hact⟩ := terminalCellSpec_active N M w hN hM
  exact softdtwRec_zero_le γ hγ w N M _ _ hint hact

/-- Witness for the amended zero-cost theorem at `γ = 1`, `w = 0`,
`N = M = 1`. -/
theorem align_zero_cost_nonpos_witness :
    ((0 : ℝ) < 1 ∧ 1 ≤ 1) ∧
      ∃ r : ℝ, softdtw_forward (fun _ _ => 0) 1 0 1 1 = XReal.val r ∧ r ≤ 0 :=
  ⟨⟨by norm_num, le_refl 1⟩, align_zero_cost_nonpos 1 0 1 1 (by norm_num) (le_refl 1) (le_refl 1)⟩

/-- C6 is false as stated: at `N = M = 2`, `γ = 1`, `w = 0` the all-zero
cost matrix yields `align = -ln 3` (the soft minimum over the three equal
alignment paths), not `0`. -/
theorem align_zero_cost_counterexample :
    softdtw_forward (fun _ _ => 0) 1 0 2 2 = XReal.val (-Real.log 3) ∧
      softdtw_forward (fun _ _ => 0) 1 0 2 2 ≠ XReal.val 0 := by
  have hact : ∀ i j : ℕ, ¬ prunedCell 0 i j := fun i j h => absurd h.1 (lt_irrefl 0)
  have b01 : softdtwRec (fun _ _ => (0 : ℝ)) 1 0 2 2 0 1 = XReal.posInf :=
    softdtwRec_notInterior _ _ _ _ _ 0 1 (by rintro ⟨a, b, c, d⟩; omega) (by rintro ⟨-, h⟩; omega)
  have b10 : softdtwRec (fun _ _ => (0 : ℝ)) 1 0 2 2 1 0 = XReal.posInf :=
    softdtwRec_notInterior _ _ _ _ _ 1 0 (by rintro ⟨a, b, c, d⟩; omega) (by rintro ⟨h, -⟩; omega)
  have b02 : softdtwRec (fun _ _ => (0 : ℝ)) 1 0 2 2 0 2 = XReal.posInf :=
    softdtwRec_notInterior _ _ _ _ _ 0 2 (by rintro ⟨a, b, c, d⟩; omega) (by rintro ⟨-, h⟩; omega)
  have b20 : softdtwRec (fun _ _ => (0 : ℝ)) 1 0 2 2 2 0 = XReal.posInf :=
    softdtwRec_notInterior _ _ _ _ _ 2 0 (by rintro ⟨a, b, c, d⟩; omega) (by rintro ⟨h, -⟩; omega)
  have e1 : (1 : ℕ) - 1 = 0 := rfl
  have e2 : (2 : ℕ) - 1 = 1 := rfl
  have h11 : softdtwRec (fun _ _ => (0 : ℝ)) 1 0 2 2 1 1 = XReal.val 0 := by
    rw [softdtwRec_active (fun _ _ => 0) 1 0 2 2 1 1 ⟨le_refl 1, by omega, le_refl 1, by omega⟩
      (hact 1 1)]
    rw [e1, softdtwRec_origin, b01, b10]
    rw [cellOut_val (fun _ _ => 0) 1 one_pos 1 1 (Or.inr ⟨0, rfl⟩) (Or.inl rfl) (Or.inl rfl)
      (Or.inl ⟨0, rfl⟩)]
    congr 1
    show (0 : ℝ) + -1 * Real.log (Real.exp (-0 / 1) + 0 + 0) = 0
    norm_num [Real.exp_zero, Real.log_one]
  have h12 : softdtwRec (fun _ _ => (0 : ℝ)) 1 0 2 2 1 2 = XReal.val 0 := by
    rw [softdtwRec_active (fun _ _ => 0) 1 0 2 2 1 2 ⟨le_refl 1, by omega, by omega, le_refl 2⟩
      (hact 1 2)]
    rw [e1, e2, b01, b02, h11]
    rw [cellOut_val (fun _ _ => 0) 1 one_pos 1 2 (Or.inl rfl) (Or.inl rfl) (Or.inr ⟨0, rfl⟩)
      (Or.inr (Or.inr ⟨0, rfl⟩))]
    congr 1
    show (0 : ℝ) + -1 * Real.log (0 + 0 + Real.exp (-0 / 1)) = 0
    norm_num [Real.exp_zero, Real.log_one]
  have h21 : softdtwRec (fun _ _ => (0 : ℝ)) 1 0 2 2 2 1 = XReal.val 0 := by
    rw [softdtwRec_active (fun _ _ => 0) 1 0 2 2 2 1 ⟨by omega, le_refl 2, le_refl 1, by omega⟩
      (hact 2 1)]
    rw [e1, e2, b10, b20, h11]
    rw [cellOut_val (fun _ _ => 0) 1 one_pos 2 1 (Or.inl rfl) (Or.inr ⟨0, rfl⟩) (Or.inl rfl)
      (Or.inr (Or.inl ⟨0, rfl⟩))]
    congr 1
    show (0 : ℝ) + -1 * Real.log (0 + Real.exp (-0 / 1) + 0) = 0
    norm_num [Real.exp_zero, Real.log_one]
  have h22 : softdtwRec (fun _ _ => (0 : ℝ)) 1 0 2 2 2 2 = XReal.val (-Real.log 3) := by
    rw [softdtwRec_active (fun _ _ => 0) 1 0 2 2 2 2 ⟨by omega, le_refl 2, by omega, le_refl 2⟩
      (hact 2 2)]
    rw [e2, h11, h12, h21]
    rw [cellOut_val (fun _ _ => 0) 1 one_pos 2 2 (Or.inr ⟨0, rfl⟩) (Or.inr ⟨0, rfl⟩)
      (Or.inr ⟨0, rfl⟩) (Or.inl ⟨0, rfl⟩)]
    congr 1
    show (0 : ℝ) + -1 * Real.log (Real.exp (-0 / 1) + Real.exp (-0 / 1) + Real.exp (-0 / 1)) =
      -Real.log 3
    norm_num [Real.exp_zero]
  have hval : softdtw_forward (fun _ _ => 0) 1 0 2 2 = XReal.val (-Real.log 3) := by
    unfold softdtw_forward
    rw [readV_eq_terminal, compute_softdtw_eq_rec, terminalCellSpec_wide 2 2 0 (Or.inl rfl)]
    exact h22
  refine ⟨hval, ?_⟩
  rw [hval]
  intro h
  have hinj := XReal.val_inj h
  have hlog : 0 < Real.log 3 := Real.log_pos (by norm_num)
  linarith

theorem prunedCell_zero (i j : ℕ) : ¬ prunedCell 0 i j := fun h => absurd h.1 (lt_irrefl 0)

theorem prunedCell_max (N M i j : ℕ) (hint : interior N M i j) :
    ¬ prunedCell (max N M) i j := by
  obtain ⟨h1, h2, h3, h4⟩ := hint
  rw [prunedCell_iff]
  omega

/-- Two bandwidths that prune the same interior cells produce the same
dependency-ordered forward grid. -/
theorem softdtwRec_band_congr (D : ℕ → ℕ → ℝ) (γ : ℝ) (N M w1 w2 : ℕ)
    (hw : ∀ i j, interior N M i j → (prunedCell w1 i j ↔ prunedCell w2 i j)) :
    softdtwRec D γ w1 N M = softdtwRec D γ w2 N M := by
  have key : ∀ k i j, i + j = k → softdtwRec D γ w1 N M i j = softdtwRec D γ w2 N M i j := by
    intro k
    induction k using Nat.strong_induction_on with
    | _ k IH =>
      intro i j hk
      rw [softdtwRec_eq D γ w1, softdtwRec_eq D γ w2]
      by_cases hint : interior N M i j
      · obtain ⟨h1, h2, h3, h4⟩ := hint
        by_cases hact : prunedCell w1 i j
        · have c1 : ¬ (interior N M i j ∧ ¬ prunedCell w1 i j) := by
            rintro ⟨-, hn⟩; exact hn hact
          have c2 : ¬ (interior N M i j ∧ ¬ prunedCell w2 i j) := by
            rintro ⟨-, hn⟩; exact hn ((hw i j ⟨h1, h2, h3, h4⟩).mp hact)
          rw [if_neg c1, if_neg c2]
        · have c1 : interior N M i j ∧ ¬ prunedCell w1 i j := ⟨⟨h1, h2, h3, h4⟩, hact⟩
          have c2 : interior N M i j ∧ ¬ prunedCell w2 i j :=
            ⟨⟨h1, h2, h3, h4⟩, fun hp => hact ((hw i j ⟨h1, h2, h3, h4⟩).mpr hp)⟩
          rw [if_pos c1, if_pos c2]
          rw [IH (i - 1 + (j - 1)) (by omega) (i - 1) (j - 1) rfl,
            IH (i - 1 + j) (by omega) (i - 1) j rfl, IH (i + (j - 1)) (by omega) i (j - 1) rfl]
      · have c1 : ¬ (interior N M i j ∧ ¬ prunedCell w1 i j) := by
          rintro ⟨hi, -⟩; exact hint hi
        have c2 : ¬ (interior N M i j ∧ ¬ prunedCell w2 i j) := by
          rintro ⟨hi, -⟩; exact hint hi
        rw [if_neg c1, if_neg c2]
  funext i j
  exact key (i + j) i j rfl

theorem bwdStep_band_congr (Dp : ℕ → ℕ → ℝ) (γ : ℝ) (w1 w2 N M i j : ℕ)
    (hw : interior N M i j → (prunedCell w1 i j ↔ prunedCell w2 i j))
    (hint : interior N M i j) (s : Grid × Grid) :
    bwdStep Dp γ w1 s i j = bwdStep Dp γ w2 s i j := by
  unfold bwdStep
  by_cases hp : prunedCell w1 i j
  · rw [if_pos hp, if_pos ((hw hint).mp hp)]
  · rw [if_neg hp, if_neg (fun h => hp ((hw hint).mpr h))]

theorem bwdInner_band_congr (Dp : ℕ → ℕ → ℝ) (γ : ℝ) (w1 w2 N M j : ℕ) (hj1 : 1 ≤ j)
    (hjM : j ≤ M)
    (hw : ∀ a b, interior N M a b → (prunedCell w1 a b ↔ prunedCell w2 a b)) :
    ∀ n, n ≤ N → ∀ s, bwdInner Dp γ w1 j n s = bwdInner Dp γ w2 j n s := by
  intro n
  induction n with
  | zero => intro _ s; rfl
  | succ n IH =>
    intro hn s
    show bwdInner Dp γ w1 j n (bwdStep Dp γ w1 s (n + 1) j) =
      bwdInner Dp γ w2 j n (bwdStep Dp γ w2 s (n + 1) j)
    rw [bwdStep_band_congr Dp γ w1 w2 N M (n + 1) j (hw (n + 1) j)
      ⟨by omega, hn, hj1, hjM⟩ s]
    exact IH (by omega) _

theorem bwdOuter_band_congr (Dp : ℕ → ℕ → ℝ) (γ : ℝ) (w1 w2 N M : ℕ)
    (hw : ∀ a b, interior N M a b → (prunedCell w1 a b ↔ prunedCell w2 a b)) :
    ∀ m, m ≤ M → ∀ s, bwdOuter Dp γ w1 N m s = bwdOuter Dp γ w2 N m s := by
  intro m
  induction m with
  | zero => intro _ s; rfl
  | succ m IH =>
    intro hm s
    show bwdOuter Dp γ w1 N m (bwdInner Dp γ w1 (m + 1) N s) =
      bwdOuter Dp γ w2 N m (bwdInner Dp γ w2 (m + 1) N s)
    rw [bwdInner_band_congr Dp γ w1 w2 N M (m + 1) (by omega) hm hw N (le_refl N) s]
    exact IH (by omega) _

theorem bandCond_zero (N M : ℕ) : (((0 : ℕ) : ℤ)) ≥ |(N : ℤ) - M| ∨ (0 : ℕ) = 0 := Or.inr rfl

theorem bandCond_max (N M : ℕ) : (((max N M : ℕ) : ℤ)) ≥ |(N : ℤ) - M| ∨ max N M = 0 := by
  left
  rw [Int.abs_eq_natAbs]
  omega

theorem bwdSetupR_zero_eq_max (Rf : Grid) (N M : ℕ) :
    bwdSetupR Rf N M 0 = bwdSetupR Rf N M (max N M) := by
  unfold bwdSetupR
  by_cases h1 : N < M
  · simp only [if_pos h1, if_pos (bandCond_max N M), or_true, if_true]
  · simp only [if_neg h1]
    by_cases h2 : M < N
    · simp only [if_pos h2, if_pos (bandCond_max N M), or_true, if_true]
    · simp only [if_neg h2]

theorem bwdSeedE_zero_eq_max (N M : ℕ) : bwdSeedE N M 0 = bwdSeedE N M (max N M) := by
  unfold bwdSeedE
  by_cases h1 : N < M
  · simp only [if_pos h1, if_pos (bandCond_max N M), or_true, if_true]
  · simp only [if_neg h1]
    by_cases h2 : M < N
    · simp only [if_pos h2, if_pos (bandCond_max N M), or_true, if_true]
    · simp only [if_neg h2]

/-- C7: for every cost matrix and `γ > 0`, running `align` with
`bandwidth = 0` and with `bandwidth = max(N, M)` produces identical forward
grids and per-batch values, and the corresponding backward passes produce
identical gradient matrices (neither setting prunes any cell and both read
the same terminal cell). -/
theorem band_zero_eq_band_max (D : ℕ → ℕ → ℝ) (γ : ℝ) (N M : ℕ) (hγ : 0 < γ) :
    compute_softdtw D γ 0 N M = compute_softdtw D γ (max N M) N M ∧
      softdtw_forward D γ 0 N M = softdtw_forward D γ (max N M) N M ∧
      compute_softdtw_backward D (compute_softdtw D γ 0 N M) γ 0 N M =
        compute_softdtw_backward D (compute_softdtw D γ (max N M) N M) γ (max N M) N M := by
  have hw : ∀ a b, interior N M a b → (prunedCell 0 a b ↔ prunedCell (max N M) a b) := by
    intro a b hint
    constructor
    · intro h; exact absurd h (prunedCell_zero a b)
    · intro h; exact absurd h (prunedCell_max N M a b hint)
  have hgrid : compute_softdtw D γ 0 N M = compute_softdtw D γ (max N M) N M := by
    rw [compute_softdtw_eq_rec, compute_softdtw_eq_rec]
    exact softdtwRec_band_congr D γ N M 0 (max N M) hw
  refine ⟨hgrid, ?_, ?_⟩
  · unfold softdtw_forward
    rw [readV_eq_terminal, readV_eq_terminal, hgrid]
    rw [terminalCellSpec_wide N M 0 (Or.inr (Or.inl rfl)),
      terminalCellSpec_wide N M (max N M) (Or.inr (Or.inr (by omega)))]
  · have hs : bwdSetup (compute_softdtw D γ 0 N M) N M 0 =
        bwdSetup (compute_softdtw D γ (max N M) N M) N M (max N M) := by
      unfold bwdSetup
      rw [hgrid, bwdSetupR_zero_eq_max, bwdSeedE_zero_eq_max]
    unfold compute_softdtw_backward bwdFinal
    funext i j
    rw [hs, bwdOuter_band_congr (padD D N M) γ 0 (max N M) N M hw M (le_refl M)
      (bwdSetup (compute_softdtw D γ (max N M) N M) N M (max N M))]

/-- Witness for the band-equivalence theorem at `γ = 1`, `N = 1`, `M = 2`. -/
theorem band_zero_eq_band_max_witness :
    (0 : ℝ) < 1 ∧
      (compute_softdtw (fun _ _ => 0) 1 0 1 2 = compute_softdtw (fun _ _ => 0) 1 (max 1 2) 1 2 ∧
        softdtw_forward (fun _ _ => 0) 1 0 1 2 = softdtw_forward (fun _ _ => 0) 1 (max 1 2) 1 2 ∧
        compute_softdtw_backward (fun _ _ => 0) (compute_softdtw (fun _ _ => 0) 1 0 1 2) 1 0 1 2 =
          compute_softdtw_backward (fun _ _ => 0)
            (compute_softdtw (fun _ _ => 0) 1 (max 1 2) 1 2) 1 (max 1 2) 1 2) :=
  ⟨by norm_num, band_zero_eq_band_max (fun _ _ => 0) 1 1 2 (by norm_num)⟩

/-- Model of `SoftDTW._calc_distance_matrix` (source lines 427-439): the
RBF-derived pairwise cost `sum_k (2 - 2 * exp(-0.5 * (x_ik - y_jk)^2))` over
the `d` feature dimensions. -/
def calc_distance_matrix (x y : ℕ → ℕ → ℝ) (d : ℕ) : ℕ → ℕ → ℝ :=
  fun i j => ∑ k ∈ Finset.range d, (2 - 2 * Real.exp (-(0.5) * (x i k - y j k) ^ 2))

/-- C10: every entry of the RBF cost matrix the module builds is
non-negative and finite, bounded above by `2 * d`; hence the engine's
precondition of non-negative finite costs holds for matrices produced by the
module itself. -/
theorem calc_distance_matrix_bounds (x y : ℕ → ℕ → ℝ) (d : ℕ) (i j : ℕ) :
    0 ≤ calc_distance_matrix x y d i j ∧ calc_distance_matrix x y d i j ≤ 2 * d := by
  unfold calc_distance_matrix
  constructor
  · apply Finset.sum_nonneg
    intro k _
    have he : Real.exp (-(0.5) * (x i k - y j k) ^ 2) ≤ 1 := by
      rw [Real.exp_le_one_iff]
      nlinarith [sq_nonneg (x i k - y j k)]
    linarith
  · calc ∑ k ∈ Finset.range d, (2 - 2 * Real.exp (-(0.5) * (x i k - y j k) ^ 2))
        ≤ ∑ k ∈ Finset.range d, 2 := by
          apply Finset.sum_le_sum
          intro k _
          have := (Real.exp_pos (-(0.5) * (x i k - y j k) ^ 2)).le
          linarith
    _ = 2 * d := by
          rw [Finset.sum_const, Finset.card_range, nsmul_eq_mul]
          ring

/-- Error raised by a failed Python `assert`. -/
inductive PyError where
  | assertionError : PyError

/-- The two implementations `_get_func_dtw` can dispatch to. -/
inductive DtwBackend where
  | cudaBackend : DtwBackend
  | cpuBackend : DtwBackend

/-- Model of `SoftDTW._get_func_dtw` (source lines 407-425): assert equal
batch sizes and equal feature dimensions, then, when CUDA is requested but a
sequence length exceeds 1024, print a message and fall back to the CPU
implementation; otherwise return the requested implementation. -/
def SoftDTW_get_func_dtw (use_cuda : Bool) (bx lx dx b2 l2 d2 : ℕ) :
    Except PyError DtwBackend :=
  if bx ≠ b2 then .error .assertionError
  else if dx ≠ d2 then .error .assertionError
  else if use_cuda ∧ (1024 < lx ∨ 1024 < l2) then .ok .cpuBackend
  else if use_cuda then .ok .cudaBackend
  else .ok .cpuBackend

/-- Model of `SoftDTW.forward` in the non-normalized configuration (source
lines 441-465 with `normalize = False`): dispatch via `_get_func_dtw`, build
the RBF cost matrix, and run the selected backend.  No validation of `γ` is
performed anywhere on this path. -/
def SoftDTW_align (use_cuda : Bool) (γ : ℝ) (w : ℕ) (bx : ℕ) (X Y : ℕ → ℕ → ℝ)
    (lx dx l2 d2 b2 : ℕ) : Except PyError XReal :=
  (SoftDTW_get_func_dtw use_cuda bx lx dx b2 l2 d2).map (fun be =>
    match be with
    | .cudaBackend => softdtw_cuda_forward (calc_distance_matrix X Y dx) γ w lx l2
    | .cpuBackend => softdtw_forward (calc_distance_matrix X Y dx) γ w lx l2)

/-- C4 is false as stated: with CUDA requested and sequence length
`1025 > 1024` and matching shapes, the dispatcher raises no capacity error;
it silently returns the sequential (CPU) implementation. -/
theorem capacity_error_counterexample :
    SoftDTW_get_func_dtw true 1 1025 4 1 1025 4 = Except.ok DtwBackend.cpuBackend := by
  unfold SoftDTW_get_func_dtw
  rw [if_neg (by norm_num), if_neg (by norm_num), if_pos (by norm_num)]

/-- C4 (amended): when the caller selects the CUDA backend and a sequence
length exceeds 1024 (with matching batch and feature shapes), the engine
does not raise: it silently falls back to the sequential backend, returning
the CPU implementation. -/
theorem capacity_fallback (bx lx dx l2 : ℕ) (hl : 1024 < lx ∨ 1024 < l2) :
    SoftDTW_get_func_dtw true bx lx dx bx l2 dx = Except.ok DtwBackend.cpuBackend := by
  unfold SoftDTW_get_func_dtw
  rw [if_neg (by simp), if_neg (by simp), if_pos ⟨rfl, hl⟩]

/-- Witness for the capacity-fallback theorem at sequence length 2000. -/
theorem capacity_fallback_witness :
    (1024 < 2000 ∨ 1024 < 5) ∧
      SoftDTW_get_func_dtw true 1 2000 4 1 5 4 = Except.ok DtwBackend.cpuBackend :=
  ⟨Or.inl (by norm_num), capacity_fallback 1 2000 4 5 (Or.inl (by norm_num))⟩

/-- C5 is false as stated: `align` accepts `γ = -1 ≤ 0` with no
invalid-argument failure; the call succeeds and returns the computed value. -/
theorem gamma_not_validated_counterexample :
    SoftDTW_align false (-1) 0 1 (fun _ _ => 0) (fun _ _ => 0) 1 1 1 1 1 =
      Except.ok (softdtw_forward
        (calc_distance_matrix (fun _ _ => 0) (fun _ _ => 0) 1) (-1) 0 1 1) := by
  unfold SoftDTW_align SoftDTW_get_func_dtw
  rw [if_neg (by simp), if_neg (by simp), if_neg (by simp), if_neg (by simp)]
  rfl

/-- C5 (amended): `align` performs no validation of `γ` at all: for every
`γ` (including `γ ≤ 0`) the call succeeds whenever the batch sizes and
feature dimensions match; shape assertion failures are the only error path,
so no `γ`-related failure is detected before the grid computation. -/
theorem align_no_gamma_check (use_cuda : Bool) (γ : ℝ) (w bx : ℕ) (X Y : ℕ → ℕ → ℝ)
    (lx dx l2 : ℕ) (hγ : γ ≤ 0) :
    ∃ v : XReal, SoftDTW_align use_cuda γ w bx X Y lx dx l2 dx bx = Except.ok v := by
  unfold SoftDTW_align SoftDTW_get_func_dtw
  rw [if_neg (by simp), if_neg (by simp)]
  by_cases h3 : use_cuda = true ∧ (1024 < lx ∨ 1024 < l2)
  · rw [if_pos h3]; exact ⟨_, rfl⟩
  · rw [if_neg h3]
    by_cases h4 : use_cuda = true
    · rw [if_pos h4]; exact ⟨_, rfl⟩
    · rw [if_neg h4]; exact ⟨_, rfl⟩

/-- Witness for the no-gamma-validation theorem at `γ = -1`. -/
theorem align_no_gamma_check_witness :
    ((-1 : ℝ) ≤ 0) ∧
      ∃ v : XReal, SoftDTW_align false (-1) 0 1 (fun _ _ => 0) (fun _ _ => 0) 1 1 1 1 1 =
        Except.ok v :=
  ⟨by norm_num, align_no_gamma_check false (-1) 0 1 (fun _ _ => 0) (fun _ _ => 0) 1 1 1
    (by norm_num)⟩

/-- The soft-assignment weight `exp((R[a,b] - R[i,j] - D[a,b]) / γ)` of the
adjoint recurrence (source lines 322-327). -/
def bwdWeight (Dp : ℕ → ℕ → ℝ) (γ : ℝ) (Rb : Grid) (i j a b : ℕ) : XReal :=
  xexp (xdiv (xsub (xsub (Rb a b) (Rb i j)) (.val (Dp a b))) γ)

/-- The final `R` grid of the backward pass: every interior cell whose value
at setup time is infinite is replaced by `-inf`; everything else is kept. -/
def bwdRfinal (Rs : Grid) (N M : ℕ) : Grid :=
  fun i j => if interior N M i j ∧ isInfX (Rs i j) = true then .negInf else Rs i j

/-- The dependency-ordered adjoint grid: the unique solution of the reverse
recurrence over the fixed boundary-adjusted `R` grid `Rb` and seed `E0`,
defined by recursion on the reverse anti-diagonal index. -/
def Eden (Dp : ℕ → ℕ → ℝ) (γ : ℝ) (w N M : ℕ) (Rb E0 : Grid) : ℕ → ℕ → XReal
  | i, j =>
    if h : interior N M i j ∧ ¬ prunedCell w i j then
      xadd (xadd
        (xmul (Eden Dp γ w N M Rb E0 (i + 1) j) (bwdWeight Dp γ Rb i j (i + 1) j))
        (xmul (Eden Dp γ w N M Rb E0 i (j + 1)) (bwdWeight Dp γ Rb i j i (j + 1))))
        (xmul (Eden Dp γ w N M Rb E0 (i + 1) (j + 1)) (bwdWeight Dp γ Rb i j (i + 1) (j + 1)))
    else E0 i j
termination_by i j => (N + 1 - i) + (M + 1 - j)
decreasing_by
  all_goals (obtain ⟨⟨h1, h2, h3, h4⟩, -⟩ := h; omega)

theorem Eden_eq (Dp : ℕ → ℕ → ℝ) (γ : ℝ) (w N M : ℕ) (Rb E0 : Grid) (i j : ℕ) :
    Eden Dp γ w N M Rb E0 i j =
      if interior N M i j ∧ ¬ prunedCell w i j then
        xadd (xadd
          (xmul (Eden Dp γ w N M Rb E0 (i + 1) j) (bwdWeight Dp γ Rb i j (i + 1) j))
          (xmul (Eden Dp γ w N M Rb E0 i (j + 1)) (bwdWeight Dp γ Rb i j i (j + 1))))
          (xmul (Eden Dp γ w N M Rb E0 (i + 1) (j + 1)) (bwdWeight Dp γ Rb i j (i + 1) (j + 1)))
      else E0 i j := by
  rw [Eden]
  rw [dite_eq_ite]

theorem Eden_active (Dp : ℕ → ℕ → ℝ) (γ : ℝ) (w N M : ℕ) (Rb E0 : Grid) (i j : ℕ)
    (hint : interior N M i j) (hact : ¬ prunedCell w i j) :
    Eden Dp γ w N M Rb E0 i j =
      xadd (xadd
        (xmul (Eden Dp γ w N M Rb E0 (i + 1) j) (bwdWeight Dp γ Rb i j (i + 1) j))
        (xmul (Eden Dp γ w N M Rb E0 i (j + 1)) (bwdWeight Dp γ Rb i j i (j + 1))))
        (xmul (Eden Dp γ w N M Rb E0 (i + 1) (j + 1)) (bwdWeight Dp γ Rb i j (i + 1) (j + 1))) := by
  rw [Eden_eq, if_pos ⟨hint, hact⟩]

theorem Eden_notActive (Dp : ℕ → ℕ → ℝ) (γ : ℝ) (w N M : ℕ) (Rb E0 : Grid) (i j : ℕ)
    (h : ¬ (interior N M i j ∧ ¬ prunedCell w i j)) :
    Eden Dp γ w N M Rb E0 i j = E0 i j := by
  rw [Eden_eq, if_neg h]

/-- The backward `R` grid after the cells satisfying `P` have been
processed. -/
def midR (Rs : Grid) (N M : ℕ) (P : ℕ → ℕ → Prop) : Grid :=
  fun i j => if interior N M i j ∧ P i j ∧ isInfX (Rs i j) = true then .negInf else Rs i j

/-- The backward `E` grid after the cells satisfying `P` have been
processed. -/
def midE (Dp : ℕ → ℕ → ℝ) (γ : ℝ) (w N M : ℕ) (Rs E0 : Grid) (P : ℕ → ℕ → Prop) : Grid :=
  fun i j => if interior N M i j ∧ ¬ prunedCell w i j ∧ P i j
    then Eden Dp γ w N M (bwdRfinal Rs N M) E0 i j else E0 i j

theorem midR_congr (Rs : Grid) (N M : ℕ) (P Q : ℕ → ℕ → Prop)
    (h : ∀ a b, interior N M a b → (P a b ↔ Q a b)) : midR Rs N M P = midR Rs N M Q := by
  funext a b
  unfold midR
  refine if_congr ?_ rfl rfl
  constructor
  · rintro ⟨hx, hp, hz⟩; exact ⟨hx, (h a b hx).mp hp, hz⟩
  · rintro ⟨hx, hq, hz⟩; exact ⟨hx, (h a b hx).mpr hq, hz⟩

theorem midE_congr (Dp : ℕ → ℕ → ℝ) (γ : ℝ) (w N M : ℕ) (Rs E0 : Grid) (P Q : ℕ → ℕ → Prop)
    (h : ∀ a b, interior N M a b → (P a b ↔ Q a b)) :
    midE Dp γ w N M Rs E0 P = midE Dp γ w N M Rs E0 Q := by
  funext a b
  unfold midE
  refine if_congr ?_ rfl rfl
  constructor
  · rintro ⟨hx, hy, hp⟩; exact ⟨hx, hy, (h a b hx).mp hp⟩
  · rintro ⟨hx, hy, hq⟩; exact ⟨hx, hy, (h a b hx).mpr hq⟩

theorem midR_eq_final (Rs : Grid) (N M : ℕ) (P : ℕ → ℕ → Prop) (a b : ℕ)
    (h : interior N M a b → P a b) : midR Rs N M P a b = bwdRfinal Rs N M a b := by
  unfold midR bwdRfinal
  refine if_congr ?_ rfl rfl
  constructor
  · rintro ⟨hx, -, hz⟩; exact ⟨hx, hz⟩
  · rintro ⟨hx, hz⟩; exact ⟨hx, h hx, hz⟩

theorem midE_eq_Eden (Dp : ℕ → ℕ → ℝ) (γ : ℝ) (w N M : ℕ) (Rs E0 : Grid) (P : ℕ → ℕ → Prop)
    (a b : ℕ) (h : interior N M a b → P a b) :
    midE Dp γ w N M Rs E0 P a b = Eden Dp γ w N M (bwdRfinal Rs N M) E0 a b := by
  unfold midE
  by_cases hc : interior N M a b ∧ ¬ prunedCell w a b
  · rw [if_pos ⟨hc.1, hc.2, h hc.1⟩]
  · rw [if_neg (by rintro ⟨hx, hy, -⟩; exact hc ⟨hx, hy⟩)]
    rw [Eden_notActive Dp γ w N M _ E0 a b hc]

theorem midR_congr_at (Rs : Grid) (N M : ℕ) (P Q : ℕ → ℕ → Prop) (a b : ℕ)
    (h : P a b ↔ Q a b) : midR Rs N M P a b = midR Rs N M Q a b := by
  unfold midR
  by_cases hc : interior N M a b ∧ P a b ∧ isInfX (Rs a b) = true
  · rw [if_pos hc, if_pos ⟨hc.1, h.mp hc.2.1, hc.2.2⟩]
  · rw [if_neg hc, if_neg (by rintro ⟨hx, hq, hz⟩; exact hc ⟨hx, h.mpr hq, hz⟩)]

theorem midE_congr_at (Dp : ℕ → ℕ → ℝ) (γ : ℝ) (w N M : ℕ) (Rs E0 : Grid)
    (P Q : ℕ → ℕ → Prop) (a b : ℕ) (h : P a b ↔ Q a b) :
    midE Dp γ w N M Rs E0 P a b = midE Dp γ w N M Rs E0 Q a b := by
  unfold midE
  by_cases hc : interior N M a b ∧ ¬ prunedCell w a b ∧ P a b
  · rw [if_pos hc, if_pos ⟨hc.1, hc.2.1, h.mp hc.2.2⟩]
  · rw [if_neg hc, if_neg (by rintro ⟨hx, hy, hq⟩; exact hc ⟨hx, hy, h.mpr hq⟩)]

/-- Processing one cell `(n+1, j₀)` of the backward sweep turns the
mid-state for "rows above `n+1` in column `j₀` (and all later columns) done"
into the mid-state with `(n+1, j₀)` also done. -/
theorem bwdStep_mid (Dp : ℕ → ℕ → ℝ) (γ : ℝ) (w N M : ℕ) (Rs E0 : Grid) (j₀ n : ℕ)
    (hj1 : 1 ≤ j₀) (hjM : j₀ ≤ M) (hn : n + 1 ≤ N) :
    bwdStep Dp γ w
        (midR Rs N M (fun a b => j₀ < b ∨ (b = j₀ ∧ n + 1 < a)),
         midE Dp γ w N M Rs E0 (fun a b => j₀ < b ∨ (b = j₀ ∧ n + 1 < a))) (n + 1) j₀ =
      (midR Rs N M (fun a b => j₀ < b ∨ (b = j₀ ∧ n < a)),
       midE Dp γ w N M Rs E0 (fun a b => j₀ < b ∨ (b = j₀ ∧ n < a))) := by
  have hint0 : interior N M (n + 1) j₀ := ⟨by omega, hn, hj1, hjM⟩
  have hPQ : ∀ a b, ¬ (a = n + 1 ∧ b = j₀) →
      ((j₀ < b ∨ (b = j₀ ∧ n + 1 < a)) ↔ (j₀ < b ∨ (b = j₀ ∧ n < a))) := by
    intro a b hab
    omega
  have hRread : midR Rs N M (fun a b => j₀ < b ∨ (b = j₀ ∧ n + 1 < a)) (n + 1) j₀ =
      Rs (n + 1) j₀ := by
    unfold midR
    rw [if_neg]
    rintro ⟨-, hp, -⟩
    omega
  have hR1 : bwdR1
      (midR Rs N M (fun a b => j₀ < b ∨ (b = j₀ ∧ n + 1 < a)),
       midE Dp γ w N M Rs E0 (fun a b => j₀ < b ∨ (b = j₀ ∧ n + 1 < a))) (n + 1) j₀ =
      midR Rs N M (fun a b => j₀ < b ∨ (b = j₀ ∧ n < a)) := by
    unfold bwdR1
    dsimp only
    rw [hRread]
    by_cases hinf : isInfX (Rs (n + 1) j₀) = true
    · rw [if_pos hinf]
      funext a b
      by_cases hab : a = n + 1 ∧ b = j₀
      · obtain ⟨rfl, rfl⟩ := hab
        rw [updateCell_same]
        unfold midR
        rw [if_pos ⟨hint0, Or.inr ⟨rfl, by omega⟩, hinf⟩]
      · rw [updateCell_other _ _ _ _ _ _ hab]
        exact midR_congr_at Rs N M _ _ a b (hPQ a b hab)
    · rw [if_neg hinf]
      funext a b
      by_cases hab : a = n + 1 ∧ b = j₀
      · obtain ⟨rfl, rfl⟩ := hab
        unfold midR
        rw [if_neg (by rintro ⟨-, hp, -⟩; omega), if_neg (by rintro ⟨-, -, hz⟩; exact hinf hz)]
      · exact midR_congr_at Rs N M _ _ a b (hPQ a b hab)
  unfold bwdStep
  by_cases hpr : prunedCell w (n + 1) j₀
  · rw [if_pos hpr]
    refine Prod.ext hR1 ?_
    dsimp only
    funext a b
    by_cases hab : a = n + 1 ∧ b = j₀
    · obtain ⟨rfl, rfl⟩ := hab
      unfold midE
      rw [if_neg (by rintro ⟨-, hy, -⟩; exact hy hpr),
        if_neg (by rintro ⟨-, hy, -⟩; exact hy hpr)]
    · exact midE_congr_at Dp γ w N M Rs E0 _ _ a b (hPQ a b hab)
  · rw [if_neg hpr]
    refine Prod.ext hR1 ?_
    dsimp only
    funext a b
    by_cases hab : a = n + 1 ∧ b = j₀
    · obtain ⟨rfl, hb1⟩ := hab
      rw [hb1, updateCell_same]
      have hmidQ : midE Dp γ w N M Rs E0 (fun a b => j₀ < b ∨ (b = j₀ ∧ n < a)) (n + 1) j₀ =
          Eden Dp γ w N M (bwdRfinal Rs N M) E0 (n + 1) j₀ := by
        unfold midE
        rw [if_pos ⟨hint0, hpr, Or.inr ⟨rfl, by omega⟩⟩]
      rw [hmidQ]
      unfold bwdEVal
      dsimp only
      rw [hR1]
      rw [midE_eq_Eden Dp γ w N M Rs E0 _ (n + 1 + 1) j₀ (fun _ => Or.inr ⟨rfl, by omega⟩)]
      rw [midE_eq_Eden Dp γ w N M Rs E0 _ (n + 1) (j₀ + 1) (fun _ => Or.inl (by omega))]
      rw [midE_eq_Eden Dp γ w N M Rs E0 _ (n + 1 + 1) (j₀ + 1) (fun _ => Or.inl (by omega))]
      rw [midR_eq_final Rs N M _ (n + 1) j₀ (fun _ => Or.inr ⟨rfl, by omega⟩)]
      rw [midR_eq_final Rs N M _ (n + 1 + 1) j₀ (fun _ => Or.inr ⟨rfl, by omega⟩)]
      rw [midR_eq_final Rs N M _ (n + 1) (j₀ + 1) (fun _ => Or.inl (by omega))]
      rw [midR_eq_final Rs N M _ (n + 1 + 1) (j₀ + 1) (fun _ => Or.inl (by omega))]
      rw [Eden_active Dp γ w N M (bwdRfinal Rs N M) E0 (n + 1) j₀ hint0 hpr]
      unfold bwdWeight
      rfl
    · rw [updateCell_other _ _ _ _ _ _ hab]
      exact midE_congr_at Dp γ w N M Rs E0 _ _ a b (hPQ a b hab)

theorem bwdInner_spec (Dp : ℕ → ℕ → ℝ) (γ : ℝ) (w N M : ℕ) (Rs E0 : Grid) (j₀ : ℕ)
    (hj1 : 1 ≤ j₀) (hjM : j₀ ≤ M) :
    ∀ n, n ≤ N →
      bwdInner Dp γ w j₀ n
          (midR Rs N M (fun a b => j₀ < b ∨ (b = j₀ ∧ n < a)),
           midE Dp γ w N M Rs E0 (fun a b => j₀ < b ∨ (b = j₀ ∧ n < a))) =
        (midR Rs N M (fun a b => j₀ < b ∨ (b = j₀ ∧ 0 < a)),
         midE Dp γ w N M Rs E0 (fun a b => j₀ < b ∨ (b = j₀ ∧ 0 < a))) := by
  intro n
  induction n with
  | zero => intro _; rfl
  | succ n IH =>
    intro hn
    simp only [bwdInner]
    rw [bwdStep_mid Dp γ w N M Rs E0 j₀ n hj1 hjM hn]
    exact IH (by omega)

theorem bwdOuter_spec (Dp : ℕ → ℕ → ℝ) (γ : ℝ) (w N M : ℕ) (Rs E0 : Grid) :
    ∀ m, m ≤ M →
      bwdOuter Dp γ w N m
          (midR Rs N M (fun a b => m < b), midE Dp γ w N M Rs E0 (fun a b => m < b)) =
        (midR Rs N M (fun a b => 0 < b), midE Dp γ w N M Rs E0 (fun a b => 0 < b)) := by
  intro m
  induction m with
  | zero => intro _; rfl
  | succ m IH =>
    intro hm
    simp only [bwdOuter]
    have e1 : midR Rs N M (fun a b => m + 1 < b) =
        midR Rs N M (fun a b => m + 1 < b ∨ (b = m + 1 ∧ N < a)) := by
      apply midR_congr
      intro a b hint
      obtain ⟨-, h2, -, -⟩ := hint
      omega
    have e2 : midE Dp γ w N M Rs E0 (fun a b => m + 1 < b) =
        midE Dp γ w N M Rs E0 (fun a b => m + 1 < b ∨ (b = m + 1 ∧ N < a)) := by
      apply midE_congr
      intro a b hint
      obtain ⟨-, h2, -, -⟩ := hint
      omega
    rw [e1, e2, bwdInner_spec Dp γ w N M Rs E0 (m + 1) (by omega) hm N (le_refl N)]
    have e3 : midR Rs N M (fun a b => m + 1 < b ∨ (b = m + 1 ∧ 0 < a)) =
        midR Rs N M (fun a b => m < b) := by
      apply midR_congr
      intro a b hint
      obtain ⟨h1, -, -, -⟩ := hint
      omega
    have e4 : midE Dp γ w N M Rs E0 (fun a b => m + 1 < b ∨ (b = m + 1 ∧ 0 < a)) =
        midE Dp γ w N M Rs E0 (fun a b => m < b) := by
      apply midE_congr
      intro a b hint
      obtain ⟨h1, -, -, -⟩ := hint
      omega
    rw [e3, e4]
    exact IH (by omega)

/-- The backward sweep computes exactly the boundary-flipped `R` grid and
the dependency-ordered adjoint grid over it. -/
theorem bwdFinal_spec (D_ : ℕ → ℕ → ℝ) (Rf : Grid) (γ : ℝ) (w N M : ℕ) :
    bwdFinal D_ Rf γ w N M =
      (bwdRfinal (bwdSetupR Rf N M w) N M,
       Eden (padD D_ N M) γ w N M (bwdRfinal (bwdSetupR Rf N M w) N M) (bwdSeedE N M w)) := by
  unfold bwdFinal bwdSetup
  have e1 : (bwdSetupR Rf N M w : Grid) =
      midR (bwdSetupR Rf N M w) N M (fun a b => M < b) := by
    funext a b
    unfold midR
    rw [if_neg]
    rintro ⟨⟨-, -, -, h4⟩, hp, -⟩
    omega
  have e2 : (bwdSeedE N M w : Grid) =
      midE (padD D_ N M) γ w N M (bwdSetupR Rf N M w) (bwdSeedE N M w) (fun a b => M < b) := by
    funext a b
    unfold midE
    rw [if_neg]
    rintro ⟨⟨-, -, -, h4⟩, -, hp⟩
    omega
  conv_lhs => rw [e1, e2]
  rw [bwdOuter_spec (padD D_ N M) γ w N M (bwdSetupR Rf N M w) (bwdSeedE N M w) M (le_refl M)]
  refine Prod.ext ?_ ?_
  · funext a b
    exact midR_eq_final (bwdSetupR Rf N M w) N M (fun a b => 0 < b) a b
      (fun hint => hint.2.2.1)
  · funext a b
    exact midE_eq_Eden (padD D_ N M) γ w N M (bwdSetupR Rf N M w) (bwdSeedE N M w)
      (fun a b => 0 < b) a b (fun hint => hint.2.2.1)

theorem setCol_other (g : Grid) (c : ℕ) (v : XReal) (i j : ℕ) (h : j ≠ c) :
    setCol g c v i j = g i j := by
  unfold setCol
  rw [if_neg h]

theorem setRow_other (g : Grid) (r : ℕ) (v : XReal) (i j : ℕ) (h : i ≠ r) :
    setRow g r v i j = g i j := by
  unfold setRow
  rw [if_neg h]

/-- The boundary setup leaves every active interior cell of `R` untouched:
the forced rows/columns are borders or fully pruned lines, and the sentinel
is a border cell. -/
theorem bwdSetupR_active (Rf : Grid) (N M w i j : ℕ) (hint : interior N M i j)
    (hact : ¬ prunedCell w i j) : bwdSetupR Rf N M w i j = Rf i j := by
  obtain ⟨h1, h2, h3, h4⟩ := hint
  have habs : |(N : ℤ) - M| = (((N : ℤ) - M).natAbs : ℤ) := Int.abs_eq_natAbs _
  have hm1 : ∀ L : ℕ, npIdx (L + 2) (-1) = L + 1 := by
    intro L; rw [npIdx_neg _ _ (by norm_num)]; omega
  rw [prunedCell_iff] at hact
  unfold bwdSetupR
  by_cases hlt : N < M
  · rw [if_pos hlt]
    by_cases h2c : (w : ℤ) ≥ |(N : ℤ) - M| ∨ w = 0
    · rw [if_pos h2c]
      unfold wideSetupR
      rw [hm1 N, hm1 M]
      rw [updateCell_other _ _ _ _ _ _ (by rintro ⟨rfl, -⟩; omega)]
      rw [setRow_other _ _ _ _ _ (by omega), setCol_other _ _ _ _ _ (by omega)]
    · rw [if_neg h2c]
      rw [habs] at h2c
      have hcol : npIdx (M + 2) ((N : ℤ) - M + w - 1) = N + w + 1 := by
        rw [npIdx_neg _ _ (by omega)]; omega
      rw [hm1 N, hcol]
      rw [updateCell_other _ _ _ _ _ _ (by rintro ⟨rfl, -⟩; omega)]
      rw [setRow_other _ _ _ _ _ (by omega), setCol_other _ _ _ _ _ (by omega)]
  · rw [if_neg hlt]
    by_cases hgt : M < N
    · rw [if_pos hgt]
      by_cases h2c : (w : ℤ) ≥ |(N : ℤ) - M| ∨ w = 0
      · rw [if_pos h2c]
        unfold wideSetupR
        rw [hm1 N, hm1 M]
        rw [updateCell_other _ _ _ _ _ _ (by rintro ⟨rfl, -⟩; omega)]
        rw [setRow_other _ _ _ _ _ (by omega), setCol_other _ _ _ _ _ (by omega)]
      · rw [if_neg h2c]
        rw [habs] at h2c
        have hrow : npIdx (N + 2) ((M : ℤ) - N + w - 1) = M + w + 1 := by
          rw [npIdx_neg _ _ (by omega)]; omega
        rw [hm1 M, hrow]
        rw [updateCell_other _ _ _ _ _ _ (by rintro ⟨-, rfl⟩; omega)]
        rw [setRow_other _ _ _ _ _ (by omega), setCol_other _ _ _ _ _ (by omega)]
    · rw [if_neg hgt]
      unfold wideSetupR
      rw [hm1 N, hm1 M]
      rw [updateCell_other _ _ _ _ _ _ (by rintro ⟨rfl, -⟩; omega)]
      rw [setRow_other _ _ _ _ _ (by omega), setCol_other _ _ _ _ _ (by omega)]

/-- At interior cells the boundary setup either keeps the forward value or
writes `-inf` (never the sentinel copy, which lands on a border cell). -/
theorem bwdSetupR_interior (Rf : Grid) (N M w i j : ℕ) (hint : interior N M i j) :
    bwdSetupR Rf N M w i j = Rf i j ∨ bwdSetupR Rf N M w i j = XReal.negInf := by
  obtain ⟨h1, h2, h3, h4⟩ := hint
  have habs : |(N : ℤ) - M| = (((N : ℤ) - M).natAbs : ℤ) := Int.abs_eq_natAbs _
  have hm1 : ∀ L : ℕ, npIdx (L + 2) (-1) = L + 1 := by
    intro L; rw [npIdx_neg _ _ (by norm_num)]; omega
  unfold bwdSetupR
  by_cases hlt : N < M
  · rw [if_pos hlt]
    by_cases h2c : (w : ℤ) ≥ |(N : ℤ) - M| ∨ w = 0
    · rw [if_pos h2c]
      unfold wideSetupR
      rw [hm1 N, hm1 M]
      rw [updateCell_other _ _ _ _ _ _ (by rintro ⟨rfl, -⟩; omega)]
      rw [setRow_other _ _ _ _ _ (by omega), setCol_other _ _ _ _ _ (by omega)]
      exact Or.inl rfl
    · rw [if_neg h2c]
      rw [habs] at h2c
      have hcol : npIdx (M + 2) ((N : ℤ) - M + w - 1) = N + w + 1 := by
        rw [npIdx_neg _ _ (by omega)]; omega
      rw [hm1 N, hcol]
      rw [updateCell_other _ _ _ _ _ _ (by rintro ⟨rfl, -⟩; omega)]
      rw [setRow_other _ _ _ _ _ (by omega)]
      by_cases hj : j = N + w + 1
      · subst hj
        unfold setCol
        rw [if_pos rfl]
        exact Or.inr rfl
      · rw [setCol_other _ _ _ _ _ hj]
        exact Or.inl rfl
  · rw [if_neg hlt]
    by_cases hgt : M < N
    · rw [if_pos hgt]
      by_cases h2c : (w : ℤ) ≥ |(N : ℤ) - M| ∨ w = 0
      · rw [if_pos h2c]
        unfold wideSetupR
        rw [hm1 N, hm1 M]
        rw [updateCell_other _ _ _ _ _ _ (by rintro ⟨rfl, -⟩; omega)]
        rw [setRow_other _ _ _ _ _ (by omega), setCol_other _ _ _ _ _ (by omega)]
        exact Or.inl rfl
      · rw [if_neg h2c]
        rw [habs] at h2c
        have hrow : npIdx (N + 2) ((M : ℤ) - N + w - 1) = M + w + 1 := by
          rw [npIdx_neg _ _ (by omega)]; omega
        rw [hm1 M, hrow]
        rw [updateCell_other _ _ _ _ _ _ (by rintro ⟨-, rfl⟩; omega)]
        by_cases hi : i = M + w + 1
        · subst hi
          unfold setRow
          rw [if_pos rfl]
          exact Or.inr rfl
        · rw [setRow_other _ _ _ _ _ hi, setCol_other _ _ _ _ _ (by omega)]
          exact Or.inl rfl
    · rw [if_neg hgt]
      unfold wideSetupR
      rw [hm1 N, hm1 M]
      rw [updateCell_other _ _ _ _ _ _ (by rintro ⟨rfl, -⟩; omega)]
      rw [setRow_other _ _ _ _ _ (by omega), setCol_other _ _ _ _ _ (by omega)]
      exact Or.inl rfl

/-- The adjoint seed is `0` at every interior cell (the sentinel is always a
border cell). -/
theorem bwdSeedE_interior (N M w i j : ℕ) (hint : interior N M i j) :
    bwdSeedE N M w i j = XReal.val 0 := by
  obtain ⟨h1, h2, h3, h4⟩ := hint
  rw [bwdSeedE_spec]
  rw [if_neg]
  rintro ⟨hi, hj⟩
  by_cases hc : N = M ∨ w = 0 ∨ ((N : ℤ) - M).natAbs ≤ w
  · rw [terminalCellSpec_wide N M w hc] at hi
    have hi2 : i = N + 1 := hi
    omega
  · by_cases hlt : N < M
    · rw [terminalCellSpec_narrow_lt N M w hlt hc] at hi
      have hi2 : i = N + 1 := hi
      omega
    · rw [terminalCellSpec_narrow_gt N M w (by omega) hc] at hj
      have hj2 : j = M + 1 := hj
      omega

/-- The final backward `R` keeps the forward value at every active interior
cell. -/
theorem bwdRfinal_forward_active (D_ : ℕ → ℕ → ℝ) (γ : ℝ) (w N M : ℕ) (hγ : 0 < γ)
    (i j : ℕ) (hint : interior N M i j) (hact : ¬ prunedCell w i j) :
    bwdRfinal (bwdSetupR (compute_softdtw D_ γ w N M) N M w) N M i j =
      compute_softdtw D_ γ w N M i j := by
  obtain ⟨r, hr⟩ : ∃ r, compute_softdtw D_ γ w N M i j = XReal.val r := by
    rw [compute_softdtw_eq_rec]
    exact softdtwRec_active_val D_ γ hγ w N M i j hint hact
  unfold bwdRfinal
  rw [bwdSetupR_active (compute_softdtw D_ γ w N M) N M w i j hint hact]
  rw [if_neg]
  rintro ⟨-, hz⟩
  rw [hr] at hz
  exact Bool.false_ne_true hz

/-- The final backward `R` holds `-inf` at every pruned interior cell. -/
theorem bwdRfinal_forward_pruned (D_ : ℕ → ℕ → ℝ) (γ : ℝ) (w N M : ℕ)
    (i j : ℕ) (hint : interior N M i j) (hpr : prunedCell w i j) :
    bwdRfinal (bwdSetupR (compute_softdtw D_ γ w N M) N M w) N M i j = XReal.negInf := by
  have hfwd : compute_softdtw D_ γ w N M i j = XReal.posInf := by
    rw [compute_softdtw_eq_rec]
    exact softdtwRec_pruned D_ γ w N M i j hint hpr
  rcases bwdSetupR_interior (compute_softdtw D_ γ w N M) N M w i j hint with h | h
  · unfold bwdRfinal
    rw [h, hfwd, if_pos ⟨hint, rfl⟩]
  · unfold bwdRfinal
    rw [h, if_pos ⟨hint, rfl⟩]

theorem bwdWeight_of_negInf (Dp : ℕ → ℕ → ℝ) (γ : ℝ) (Rb : Grid) (i j a b : ℕ)
    (hγ : 0 < γ) (hb : Rb a b = XReal.negInf) (r : ℝ) (hij : Rb i j = XReal.val r) :
    bwdWeight Dp γ Rb i j a b = XReal.val 0 := by
  unfold bwdWeight
  rw [hb, hij]
  simp [xsub, xdiv, xexp, lt_asymm hγ]

/-- C3 is false as stated: with `N = 1`, `M = 3`, `w = 1`, `γ = 1` and the
all-zero cost matrix, the interior cell `(1,3)` holds `+inf` after the
forward pass but `-inf` after the backward pass (the backward pass rewrites
infinite and banded-out interior cells of `R` in place). -/
theorem backward_mutates_R_counterexample :
    ¬ (∀ i j, interior 1 3 i j →
        (bwdFinal (fun _ _ => 0) (compute_softdtw (fun _ _ => 0) 1 1 1 3) 1 1 1 3).1 i j =
          compute_softdtw (fun _ _ => 0) 1 1 1 3 i j) := by
  intro h
  have h13 := h 1 3 ⟨le_refl 1, le_refl 1, by omega, le_refl 3⟩
  rw [bwdFinal_spec] at h13
  dsimp only at h13
  have hpr : prunedCell 1 1 3 := by
    rw [prunedCell_iff]
    omega
  rw [bwdRfinal_forward_pruned (fun _ _ => 0) 1 1 1 3 1 3
    ⟨le_refl 1, le_refl 1, by omega, le_refl 3⟩ hpr] at h13
  rw [compute_softdtw_eq_rec] at h13
  rw [softdtwRec_pruned (fun _ _ => 0) 1 1 1 3 1 3
    ⟨le_refl 1, le_refl 1, by omega, le_refl 3⟩ hpr] at h13
  exact XReal.posInf_ne_negInf h13.symm

/-- C3 (amended): during a gradient call the forward grid `R` is preserved
at every ACTIVE interior cell — its value after the backward pass equals the
value produced by the forward pass.  (Pruned interior cells, which held
`+inf`, are rewritten to `-inf` by the backward pass, and two border
rows/columns are written; the claim's "every interior cell" fails exactly on
the pruned cells.) -/
theorem backward_preserves_active_R (D_ : ℕ → ℕ → ℝ) (γ : ℝ) (w N M : ℕ) (hγ : 0 < γ) :
    ∀ i j, interior N M i j → ¬ prunedCell w i j →
      (bwdFinal D_ (compute_softdtw D_ γ w N M) γ w N M).1 i j =
        compute_softdtw D_ γ w N M i j := by
  intro i j hint hact
  rw [bwdFinal_spec]
  exact bwdRfinal_forward_active D_ γ w N M hγ i j hint hact

/-- Witness for the amended R-preservation theorem at `γ = 1`, `w = 1`,
`N = M = 1`. -/
theorem backward_preserves_active_R_witness :
    (0 : ℝ) < 1 ∧
      ∀ i j, interior 1 1 i j → ¬ prunedCell 1 i j →
        (bwdFinal (fun _ _ => 0) (compute_softdtw (fun _ _ => 0) 1 1 1 1) 1 1 1 1).1 i j =
          compute_softdtw (fun _ _ => 0) 1 1 1 1 i j :=
  ⟨by norm_num, backward_preserves_active_R (fun _ _ => 0) 1 1 1 1 (by norm_num)⟩

/-- C8: for every cost matrix, `γ > 0` and bandwidth `w > 0`, the gradient
matrix returned by the backward pass is exactly `0` at every pruned cell
`(i,j)` with `|i-j| > w`, and no pruned cell contributes gradient mass to
the recurrence of active cells: every active interior cell's adjoint value
satisfies the three-successor recurrence over the final `R`/`E` grids, and
any term whose successor is a pruned interior cell equals `0` (that
successor's adjoint is `0` and its soft-assignment weight evaluates to
`exp(-inf) = 0`). -/
theorem pruned_cells_no_gradient (D_ : ℕ → ℕ → ℝ) (γ : ℝ) (w N M : ℕ) (hγ : 0 < γ)
    (hw : 0 < w) :
    (∀ i j, i < N → j < M → prunedCell w (i + 1) (j + 1) →
      compute_softdtw_backward D_ (compute_softdtw D_ γ w N M) γ w N M i j = XReal.val 0) ∧
    (∀ i j, interior N M i j → ¬ prunedCell w i j →
      (bwdFinal D_ (compute_softdtw D_ γ w N M) γ w N M).2 i j =
        xadd (xadd
          (xmul ((bwdFinal D_ (compute_softdtw D_ γ w N M) γ w N M).2 (i + 1) j)
            (bwdWeight (padD D_ N M) γ
              (bwdFinal D_ (compute_softdtw D_ γ w N M) γ w N M).1 i j (i + 1) j))
          (xmul ((bwdFinal D_ (compute_softdtw D_ γ w N M) γ w N M).2 i (j + 1))
            (bwdWeight (padD D_ N M) γ
              (bwdFinal D_ (compute_softdtw D_ γ w N M) γ w N M).1 i j i (j + 1))))
          (xmul ((bwdFinal D_ (compute_softdtw D_ γ w N M) γ w N M).2 (i + 1) (j + 1))
            (bwdWeight (padD D_ N M) γ
              (bwdFinal D_ (compute_softdtw D_ γ w N M) γ w N M).1 i j (i + 1) (j + 1))) ∧
      ∀ a b, ((a = i + 1 ∧ b = j) ∨ (a = i ∧ b = j + 1) ∨ (a = i + 1 ∧ b = j + 1)) →
        interior N M a b → prunedCell w a b →
        xmul ((bwdFinal D_ (compute_softdtw D_ γ w N M) γ w N M).2 a b)
          (bwdWeight (padD D_ N M) γ
            (bwdFinal D_ (compute_softdtw D_ γ w N M) γ w N M).1 i j a b) = XReal.val 0) := by
  constructor
  · intro i j hi hj hpr
    unfold compute_softdtw_backward
    rw [bwdFinal_spec]
    dsimp only
    rw [Eden_notActive _ γ w N M _ _ (i + 1) (j + 1) (by rintro ⟨-, hn⟩; exact hn hpr)]
    exact bwdSeedE_interior N M w (i + 1) (j + 1) ⟨by omega, by omega, by omega, by omega⟩
  · intro i j hint hact
    rw [bwdFinal_spec]
    dsimp only
    constructor
    · exact Eden_active _ γ w N M _ _ i j hint hact
    · intro a b hsucc hint2 hpr2
      rw [Eden_notActive _ γ w N M _ _ a b (by rintro ⟨-, hn⟩; exact hn hpr2)]
      rw [bwdSeedE_interior N M w a b hint2]
      obtain ⟨r, hr⟩ :
          ∃ r, bwdRfinal (bwdSetupR (compute_softdtw D_ γ w N M) N M w) N M i j =
            XReal.val r := by
        obtain ⟨r, hr⟩ : ∃ r, compute_softdtw D_ γ w N M i j = XReal.val r := by
          rw [compute_softdtw_eq_rec]
          exact softdtwRec_active_val D_ γ hγ w N M i j hint hact
        exact ⟨r, by rw [bwdRfinal_forward_active D_ γ w N M hγ i j hint hact]; exact hr⟩
      rw [bwdWeight_of_negInf (padD D_ N M) γ _ i j a b hγ
        (bwdRfinal_forward_pruned D_ γ w N M a b hint2 hpr2) r hr]
      show xmul (XReal.val 0) (XReal.val 0) = XReal.val 0
      simp [xmul]

/-- Witness for the pruned-cell gradient theorem at `γ = 1`, `w = 1`,
`N = 1`, `M = 3`. -/
theorem pruned_cells_no_gradient_witness :
    ((0 : ℝ) < 1 ∧ 0 < 1) ∧
      ((∀ i j, i < 1 → j < 3 → prunedCell 1 (i + 1) (j + 1) →
        compute_softdtw_backward (fun _ _ => 0) (compute_softdtw (fun _ _ => 0) 1 1 1 3) 1 1 1 3
          i j = XReal.val 0) ∧
      (∀ i j, interior 1 3 i j → ¬ prunedCell 1 i j →
        (bwdFinal (fun _ _ => 0) (compute_softdtw (fun _ _ => 0) 1 1 1 3) 1 1 1 3).2 i j =
          xadd (xadd
            (xmul ((bwdFinal (fun _ _ => 0) (compute_softdtw (fun _ _ => 0) 1 1 1 3) 1 1 1 3).2
                (i + 1) j)
              (bwdWeight (padD (fun _ _ => 0) 1 3) 1
                (bwdFinal (fun _ _ => 0) (compute_softdtw (fun _ _ => 0) 1 1 1 3) 1 1 1 3).1
                i j (i + 1) j))
            (xmul ((bwdFinal (fun _ _ => 0) (compute_softdtw (fun _ _ => 0) 1 1 1 3) 1 1 1 3).2
                i (j + 1))
              (bwdWeight (padD (fun _ _ => 0) 1 3) 1
                (bwdFinal (fun _ _ => 0) (compute_softdtw (fun _ _ => 0) 1 1 1 3) 1 1 1 3).1
                i j i (j + 1))))
            (xmul ((bwdFinal (fun _ _ => 0) (compute_softdtw (fun _ _ => 0) 1 1 1 3) 1 1 1 3).2
                (i + 1) (j + 1))
              (bwdWeight (padD (fun _ _ => 0) 1 3) 1
                (bwdFinal (fun _ _ => 0) (compute_softdtw (fun _ _ => 0) 1 1 1 3) 1 1 1 3).1
                i j (i + 1) (j + 1))) ∧
        ∀ a b, ((a = i + 1 ∧ b = j) ∨ (a = i ∧ b = j + 1) ∨ (a = i + 1 ∧ b = j + 1)) →
          interior 1 3 a b → prunedCell 1 a b →
          xmul ((bwdFinal (fun _ _ => 0) (compute_softdtw (fun _ _ => 0) 1 1 1 3) 1 1 1 3).2 a b)
            (bwdWeight (padD (fun _ _ => 0) 1 3) 1
              (bwdFinal (fun _ _ => 0) (compute_softdtw (fun _ _ => 0) 1 1 1 3) 1 1 1 3).1
              i j a b) = XReal.val 0)) :=
  ⟨⟨by norm_num, by norm_num⟩,
    pruned_cells_no_gradient (fun _ _ => 0) 1 1 1 3 (by norm_num) (by norm_num)⟩

end SoftDtwPy
